import Mathlib

/-!
# lindb: the tag store and the broker node state machine

The first part is `tsdb/indexdb/tag_store.gen.go`, the second part is
`coordinator/broker/node_state_machine.go`.

A shallow embedding of `TagStore`, the ordered `uint32 -> *roaring.Bitmap` map
whose keys live in a roaring bitmap and whose values live in a two-level slice
addressed by container index and rank.

* Go slices are lists; an index or slice expression that is out of range is a
  `Panic`, so every operation returns `Except Panic _`.
* `uint32` keys are natural numbers; no arithmetic is done on keys, only the
  split into high and low 16 bits.
* The key bitmap is the external `github.com/lindb/roaring` package; it is
  modelled from its contract (ascending enumeration, containers by high 16
  bits, binary-search container index, rank inside a container).
-/

namespace Lindb

/-! ## Go runtime failures and slice primitives -/

/-- The two run-time panics that slice code can raise. -/
inductive Panic where
  | indexOutOfRange
  | sliceBoundsOutOfRange
deriving DecidableEq, Repr

deriving instance DecidableEq for Except

/-- Go `s[i]` as a read: panics unless `0 <= i < len(s)`. -/
def goIndex {α : Type} (s : List α) (i : Int) : Except Panic α :=
  if i < 0 then .error .indexOutOfRange
  else match s[i.toNat]? with
    | some a => .ok a
    | none => .error .indexOutOfRange

/-- Go `s[i] = a`: panics unless `0 <= i < len(s)`. -/
def goSetIndex {α : Type} (s : List α) (i : Int) (a : α) : Except Panic (List α) :=
  if i < 0 then .error .indexOutOfRange
  else if i.toNat < s.length then .ok (s.set i.toNat a)
  else .error .indexOutOfRange

/-- Go `copy(s[dst:], s[lo:hi])` on one backing slice `s`: both slice
expressions are bounds-checked (`0 <= dst <= len(s)`, `0 <= lo <= hi <= len(s)`),
then `min(len(s)-dst, hi-lo)` elements move, as with memmove. -/
def goCopyWithin {α : Type} (s : List α) (dst lo hi : Int) : Except Panic (List α) :=
  if dst < 0 ∨ (s.length : Int) < dst then .error .sliceBoundsOutOfRange
  else if lo < 0 ∨ hi < lo ∨ (s.length : Int) < hi then .error .sliceBoundsOutOfRange
  else
    let src := (s.take hi.toNat).drop lo.toNat
    let n := min (s.length - dst.toNat) src.length
    .ok (s.take dst.toNat ++ src.take n ++ s.drop (dst.toNat + n))

/-! ## The key bitmap -/

/-- Modelled from the spec: the container prefix of a key, `uint16(x >> 16)`
in `roaring`; for a `uint32` this is `x / 65536`. -/
def highbits (x : Nat) : Nat := x / 65536

/-- Modelled from the spec: the position of a key inside its container,
`uint16(x & 0xFFFF)` in `roaring`. -/
def lowbits (x : Nat) : Nat := x % 65536

/-- Modelled from the spec: `roaring.Bitmap`, the PresenceIndex, held as the
ascending enumeration of its keys. Containers are the groups of keys sharing
their high 16 bits. -/
structure Bitmap where
  elems : List Nat
deriving DecidableEq, Repr

namespace Bitmap

/-- Modelled from the spec: `roaring.New()`, the empty bitmap. -/
def New : Bitmap := ⟨[]⟩

/-- Modelled from the spec: `Add(key)`, idempotent insertion that keeps the
enumeration ascending. -/
def Add (b : Bitmap) (x : Nat) : Bitmap :=
  if x ∈ b.elems then b else ⟨b.elems.orderedInsert (· ≤ ·) x⟩

/-- Modelled from the spec: the prefixes of the existing containers, in
ascending order. -/
def containerKeys (b : Bitmap) : List Nat := (b.elems.map highbits).dedup

/-- Modelled from the spec: the low 16 bits held by the container of prefix
`hb`, ascending. -/
def container (b : Bitmap) (hb : Nat) : List Nat :=
  (b.elems.filter (fun k => highbits k = hb)).map lowbits

/-- Modelled from the spec: the container index of a prefix among the existing
containers, by binary search: its position when present, and the negative
sentinel `-(insertion point) - 1` when there is no such container yet. -/
def getIndex (keys : List Nat) (hb : Nat) : Int :=
  if hb ∈ keys then (keys.countP (· < hb) : Int)
  else -(keys.countP (· < hb) : Int) - 1

/-- Modelled from the spec: `ContainsAndRank(key)`, returning
`(found, containerIndex, rank)`. The container index is negative when the
container does not exist; otherwise `rank` is the number of keys of the
container that are `<=` the queried key. -/
def ContainsAndRank (b : Bitmap) (x : Nat) : Bool × Int × Int :=
  let hb := highbits x
  let highIdx := getIndex b.containerKeys hb
  if highIdx < 0 then (false, highIdx, 0)
  else
    let c := b.container hb
    (decide (lowbits x ∈ c), highIdx, (c.countP (· ≤ lowbits x) : Int))

/-- Modelled from the spec: `GetCardinality()`, the number of distinct keys. -/
def GetCardinality (b : Bitmap) : Nat := b.elems.length

/-- Modelled from the spec: the enumeration of the keys in ascending order. -/
def ToArray (b : Bitmap) : List Nat := b.elems

end Bitmap

/-! ## TagStore -/

/-- The Go struct `TagStore`: the key bitmap and the values by high and low
key. A value is a `*roaring.Bitmap`; `default` stands for `nil`. -/
structure TagStore (V : Type) where
  keys : Bitmap
  values : List (List V)
deriving DecidableEq, Repr

/-- The Go constructor `NewTagStore`: an empty bitmap and a nil value slice. -/
def NewTagStore {V : Type} : TagStore V := { keys := Bitmap.New, values := [] }

namespace TagStore

variable {V : Type} [Inhabited V]

/-- The Go method `Get`: `(nil, false)` when absent, otherwise
`m.values[highIdx][lowIdx-1]`. -/
def Get (m : TagStore V) (key : Nat) : Except Panic (V × Bool) :=
  if m.values.length = 0 then .ok (default, false)
  else
    let r := m.keys.ContainsAndRank key
    let found := r.1
    let highIdx := r.2.1
    let lowIdx := r.2.2
    if !found then .ok (default, false)
    else do
      let stores ← goIndex m.values highIdx
      let v ← goIndex stores (lowIdx - 1)
      pure (v, true)

/-- The Go method `Put`. -/
def Put (m : TagStore V) (key : Nat) (value : V) : Except Panic (TagStore V) :=
  if m.values.length = 0 then
    -- if values is empty, append new low container directly
    .ok { keys := m.keys.Add key, values := m.values ++ [[value]] }
  else
    let r := m.keys.ContainsAndRank key
    let found := r.1
    let highIdx := r.2.1
    let lowIdx := r.2.2
    if !found then
      let keys := m.keys.Add key
      if highIdx ≥ 0 then do
        -- high container exist
        let stores ← goIndex m.values highIdx
        -- insert operation
        let stores := stores ++ [default]
        let stores ← goCopyWithin stores (lowIdx + 1) lowIdx ((stores.length : Int) - 1)
        let stores ← goSetIndex stores lowIdx value
        let values ← goSetIndex m.values highIdx stores
        pure { keys := keys, values := values }
      else
        -- high container not exist, append operation
        .ok { keys := keys, values := m.values ++ [[value]] }
    else .ok m

/-- The Go method `Keys`. -/
def Keys (m : TagStore V) : Bitmap := m.keys

/-- The Go method `Values`. -/
def Values (m : TagStore V) : List (List V) := m.values

/-- The Go method `Size`: `int(m.keys.GetCardinality())`. -/
def Size (m : TagStore V) : Nat := m.keys.GetCardinality

/-- A finite sequence of `Put` calls, left to right; it stops at the first
call that panics. -/
def PutAll (m : TagStore V) : List (Nat × V) → Except Panic (TagStore V)
  | [] => .ok m
  | kv :: rest =>
    match m.Put kv.1 kv.2 with
    | .ok m' => PutAll m' rest
    | .error e => .error e

end TagStore

/-! ## Reference structures for the value table -/

section Reference

variable {V : Type}

/-- The distinct high-16-bit prefixes of the keys of `ps`, in the order of
`ps` (ascending when `ps` is ascending by key). -/
def prefixesOf (ps : List (Nat × V)) : List Nat :=
  (ps.map (fun kv => highbits kv.1)).dedup

/-- The values of the pairs of `ps` whose key has prefix `p`, in the order of `ps`. -/
def groupOf (ps : List (Nat × V)) (p : Nat) : List V :=
  (ps.filter (fun kv => highbits kv.1 = p)).map Prod.snd

/-- One group per distinct prefix, each listing the values of its keys. -/
def tableOf (ps : List (Nat × V)) : List (List V) :=
  (prefixesOf ps).map (groupOf ps)

/-- The pairs in ascending key order. -/
def sortByKey (kvs : List (Nat × V)) : List (Nat × V) :=
  kvs.insertionSort (fun a b => a.1 ≤ b.1)

/-- The reference table of a set of pairs: one group per distinct
high-16-bit prefix in ascending prefix order, each group listing the values of
its keys in ascending key order. -/
def refTable (kvs : List (Nat × V)) : List (List V) :=
  tableOf (sortByKey kvs)

/-- The pairs that take effect under first-write-wins: each key keeps the
value of its first occurrence, later occurrences are dropped. -/
def firstWrites : List (Nat × V) → List (Nat × V)
  | [] => []
  | kv :: rest => kv :: (firstWrites rest).filter (fun a => a.1 ≠ kv.1)

/-- Each key of the sequence either falls in a group that an earlier key
(or a key of `seen`) already introduced, or has high 16 bits above those of
every earlier key. -/
def GroupsAscend : List Nat → List Nat → Prop
  | _, [] => True
  | seen, k :: rest =>
    (highbits k ∈ seen.map highbits ∨ ∀ k' ∈ seen, highbits k' < highbits k) ∧
      GroupsAscend (k :: seen) rest

instance GroupsAscend.decidable : ∀ seen ks : List Nat, Decidable (GroupsAscend seen ks)
  | _, [] => isTrue trivial
  | seen, k :: rest =>
    have := GroupsAscend.decidable (k :: seen) rest
    inferInstanceAs (Decidable
      ((highbits k ∈ seen.map highbits ∨ ∀ k' ∈ seen, highbits k' < highbits k) ∧
        GroupsAscend (k :: seen) rest))

/-- Rank alignment of a store: the value table has one group per container of
the key bitmap, in the same order, and each group is as long as its container. -/
def RankAligned (m : TagStore V) : Prop :=
  m.values.map List.length =
    m.keys.containerKeys.map (fun hb => (m.keys.container hb).length)

instance RankAligned.decidable (m : TagStore V) : Decidable (RankAligned m) :=
  inferInstanceAs (Decidable (_ = _))

/-- The store `s` mirrors the pairs `ps`: `ps` is strictly ascending by key,
the bitmap enumerates the keys of `ps`, and the value table is the table of `ps`. -/
structure Mirrors (s : TagStore V) (ps : List (Nat × V)) : Prop where
  sorted : ps.Pairwise (fun a b => a.1 < b.1)
  keys : s.keys.elems = ps.map Prod.fst
  values : s.values = tableOf ps

end Reference

/-! ## The broker node state machine (`coordinator/broker/node_state_machine.go`)

The methods run under the state machine's mutex, so each is one atomic step on
the state. The type of an active node, the JSON decoder, `filepath.Split` and
the formatting of the metrics endpoint are declared outside the file and are
taken as parameters. Calls to the monitoring state machine and to the logger
are recorded in the state, oldest first. -/

namespace Broker

/-- What `OnCreate` and `OnDelete` use from outside the file, for a type `N` of
active nodes (`models.ActiveNode`): `unmarshal resource` is the node that
`json.Unmarshal(resource, &node)` decodes, or `none` when it returns an error;
`split` is `filepath.Split`; `metricsURL node` is
`fmt.Sprintf("http://%s:%d/metrics", node.Node.IP, node.Node.HTTPPort)`. -/
structure Deps (N : Type) where
  unmarshal : List Nat → Option N
  split : String → String × String
  metricsURL : N → String

/-- A call issued to the `MonitoringStateMachine`. -/
inductive MonitorCall where
  | Start (target : String)
  | Stop (target : String)
deriving DecidableEq, Repr

/-- Go `m[k]` with the comma-ok form, on a map held as a list of entries with
distinct keys. -/
def mapGet {N : Type} : List (String × N) → String → Option N
  | [], _ => none
  | e :: t, k => if e.1 = k then some e.2 else mapGet t k

/-- Go `m[k] = v`: replaces the entry of `k`, or adds one. -/
def mapSet {N : Type} : List (String × N) → String → N → List (String × N)
  | [], k, v => [(k, v)]
  | e :: t, k, v => if e.1 = k then (k, v) :: t else e :: mapSet t k v

/-- Go `delete(m, k)`: removes the entry of `k`, if any. -/
def mapDelete {N : Type} : List (String × N) → String → List (String × N)
  | [], _ => []
  | e :: t, k => if e.1 = k then mapDelete t k else e :: mapDelete t k

/-- The Go struct `nodeStateMachine`: the active-node map `nodes` and the
`monitoring` flag, with the calls made so far to `monitoringSM` and the
resources passed to `log.Error`. -/
structure nodeStateMachine (N : Type) where
  nodes : List (String × N)
  monitoring : Bool
  monitorCalls : List MonitorCall
  errorLog : List (List Nat)

namespace nodeStateMachine

variable {N : Type}

/-- The Go method `GetActiveNodes`: the values of the map (Go leaves the
iteration order unspecified). -/
def GetActiveNodes (s : nodeStateMachine N) : List N := s.nodes.map Prod.snd

/-- The Go method `OnCreate`. -/
def OnCreate (d : Deps N) (s : nodeStateMachine N) (key : String) (resource : List Nat) :
    nodeStateMachine N :=
  match d.unmarshal resource with
  | none => { s with errorLog := s.errorLog ++ [resource] }
  | some node =>
    let nodeID := (d.split key).2
    let s1 := { s with nodes := mapSet s.nodes nodeID node }
    if s1.monitoring then
      { s1 with monitorCalls := s1.monitorCalls ++ [.Start (d.metricsURL node)] }
    else s1

/-- The Go method `OnDelete`. -/
def OnDelete (d : Deps N) (s : nodeStateMachine N) (key : String) : nodeStateMachine N :=
  let nodeID := (d.split key).2
  let s1 :=
    if s.monitoring then
      match mapGet s.nodes nodeID with
      | some node => { s with monitorCalls := s.monitorCalls ++ [.Stop (d.metricsURL node)] }
      | none => s
    else s
  { s1 with nodes := mapDelete s1.nodes nodeID }

end nodeStateMachine

/-- A path split at its last slash, as `filepath.Split` does on slash-separated
paths: the file part is what follows the last slash (the whole path when there
is none), the directory part is the rest. -/
def splitLastSlash (path : List Char) : List Char × List Char :=
  let file := (path.reverse.takeWhile (fun c => c ≠ '/')).reverse
  (path.take (path.length - file.length), file)

/-- Example dependencies, for nodes that are plain HTTP ports on one host: a
resource decodes when it is a single number, a path splits at its last slash. -/
def exampleDeps : Deps Nat where
  unmarshal := fun resource => match resource with
    | [n] => some n
    | _ => none
  split := fun key =>
    (String.mk (splitLastSlash key.data).1, String.mk (splitLastSlash key.data).2)
  metricsURL := fun n => "http://localhost:" ++ String.mk (Nat.toDigits 10 n) ++ "/metrics"

end Broker

/-! ## Lists ordered by a natural-number key -/

section ListLemmas

variable {α : Type}

theorem exists_split_fresh (f : α → Nat) (k : Nat) :
    ∀ l : List α, l.Pairwise (fun a b => f a < f b) → (∀ a ∈ l, f a ≠ k) →
      ∃ l1 l2, l = l1 ++ l2 ∧ (∀ a ∈ l1, f a < k) ∧ (∀ a ∈ l2, k < f a)
  | [], _, _ => ⟨[], [], rfl, by simp, by simp⟩
  | a :: t, hs, hk => by
    rw [List.pairwise_cons] at hs
    by_cases h : f a < k
    · obtain ⟨l1, l2, e, h1, h2⟩ :=
        exists_split_fresh f k t hs.2 (fun b hb => hk b (List.mem_cons_of_mem _ hb))
      refine ⟨a :: l1, l2, by simp [e], ?_, h2⟩
      intro b hb
      rcases List.mem_cons.1 hb with rfl | hb
      · exact h
      · exact h1 b hb
    · have hak : k < f a := by
        have := hk a (List.mem_cons_self _ _)
        omega
      refine ⟨[], a :: t, rfl, by simp, ?_⟩
      intro b hb
      rcases List.mem_cons.1 hb with rfl | hb
      · exact hak
      · have := hs.1 b hb
        omega

theorem exists_split_mem (f : α → Nat) (x : α) :
    ∀ l : List α, l.Pairwise (fun a b => f a < f b) → x ∈ l →
      ∃ l1 l2, l = l1 ++ x :: l2 ∧ (∀ a ∈ l1, f a < f x) ∧ (∀ a ∈ l2, f x < f a)
  | [], _, hx => by simp at hx
  | a :: t, hs, hx => by
    rw [List.pairwise_cons] at hs
    rcases List.mem_cons.1 hx with rfl | hxt
    · exact ⟨[], t, rfl, by simp, hs.1⟩
    · obtain ⟨l1, l2, e, h1, h2⟩ := exists_split_mem f x t hs.2 hxt
      refine ⟨a :: l1, l2, by simp [e], ?_, h2⟩
      intro b hb
      rcases List.mem_cons.1 hb with rfl | hb
      · exact hs.1 x hxt
      · exact h1 b hb

theorem orderedInsert_split (r : α → α → Prop) [DecidableRel r] (a : α) :
    ∀ (l1 l2 : List α), (∀ b ∈ l1, ¬ r a b) → (∀ b ∈ l2, r a b) →
      List.orderedInsert r a (l1 ++ l2) = l1 ++ a :: l2
  | [], [], _, _ => rfl
  | [], b :: t, _, h2 => by simp [List.orderedInsert, h2 b (List.mem_cons_self _ _)]
  | c :: l1, l2, h1, h2 => by
    have hc : ¬ r a c := h1 c (List.mem_cons_self _ _)
    have ih := orderedInsert_split r a l1 l2 (fun b hb => h1 b (List.mem_cons_of_mem _ hb)) h2
    simp [List.orderedInsert, hc, ih]

theorem pairwise_split_insert (f : α → Nat) (x : α) (l1 l2 : List α)
    (hs : (l1 ++ l2).Pairwise (fun a b => f a < f b))
    (h1 : ∀ a ∈ l1, f a < f x) (h2 : ∀ a ∈ l2, f x < f a) :
    (l1 ++ x :: l2).Pairwise (fun a b => f a < f b) := by
  rw [List.pairwise_append] at hs ⊢
  refine ⟨hs.1, ?_, ?_⟩
  · rw [List.pairwise_cons]
    exact ⟨h2, hs.2.1⟩
  · intro a ha b hb
    rcases List.mem_cons.1 hb with rfl | hb
    · exact h1 a ha
    · exact hs.2.2 a ha b hb

theorem countP_lt_split (l1 l2 : List Nat) (x : Nat)
    (h1 : ∀ a ∈ l1, a < x) (h2 : ∀ a ∈ l2, x ≤ a) :
    (l1 ++ l2).countP (· < x) = l1.length := by
  rw [List.countP_append]
  have e1 : l1.countP (· < x) = l1.length := by
    rw [List.countP_eq_length]
    intro a ha
    simpa using h1 a ha
  have e2 : l2.countP (· < x) = 0 := by
    rw [List.countP_eq_zero]
    intro a ha
    have := h2 a ha
    simp
    omega
  omega

theorem countP_le_split (l1 l2 : List Nat) (x : Nat)
    (h1 : ∀ a ∈ l1, a ≤ x) (h2 : ∀ a ∈ l2, x < a) :
    (l1 ++ l2).countP (· ≤ x) = l1.length := by
  rw [List.countP_append]
  have e1 : l1.countP (· ≤ x) = l1.length := by
    rw [List.countP_eq_length]
    intro a ha
    simpa using h1 a ha
  have e2 : l2.countP (· ≤ x) = 0 := by
    rw [List.countP_eq_zero]
    intro a ha
    have := h2 a ha
    simp
    omega
  omega

end ListLemmas

/-! ## Facts about the key bitmap -/

theorem key_eq_of_bits {a b : Nat} (hh : highbits a = highbits b) (hl : lowbits a = lowbits b) :
    a = b := by
  unfold highbits at hh
  unfold lowbits at hl
  omega

theorem highbits_mono {a b : Nat} (h : a ≤ b) : highbits a ≤ highbits b := by
  unfold highbits
  omega

theorem lowbits_lt_of_lt {a b : Nat} (hh : highbits a = highbits b) (h : a < b) :
    lowbits a < lowbits b := by
  unfold highbits at hh
  unfold lowbits
  omega

namespace Bitmap

theorem mem_containerKeys {b : Bitmap} {hb : Nat} :
    hb ∈ b.containerKeys ↔ ∃ k ∈ b.elems, highbits k = hb := by
  simp [containerKeys, List.mem_dedup]

theorem mem_container {b : Bitmap} {x : Nat} :
    lowbits x ∈ b.container (highbits x) ↔ x ∈ b.elems := by
  simp only [container, List.mem_map, List.mem_filter, decide_eq_true_eq]
  constructor
  · rintro ⟨k, ⟨hk, hh⟩, hl⟩
    rw [← key_eq_of_bits hh hl]
    exact hk
  · intro hx
    exact ⟨x, ⟨hx, rfl⟩, rfl⟩

theorem getIndex_neg_iff {keys : List Nat} {hb : Nat} : getIndex keys hb < 0 ↔ hb ∉ keys := by
  unfold getIndex
  split <;> rename_i h
  · simp only [h, not_true_eq_false, iff_false]
    omega
  · simp only [h, not_false_eq_true, iff_true]
    omega

theorem containsAndRank_found {b : Bitmap} {x : Nat} :
    (b.ContainsAndRank x).1 = true ↔ x ∈ b.elems := by
  unfold ContainsAndRank
  simp only
  split <;> rename_i h
  · rw [getIndex_neg_iff, mem_containerKeys] at h
    simp only [Bool.false_eq_true, false_iff]
    intro hx
    exact h ⟨x, hx, rfl⟩
  · simp [mem_container]

theorem mem_add {b : Bitmap} {x k : Nat} : k ∈ (b.Add x).elems ↔ k = x ∨ k ∈ b.elems := by
  unfold Add
  split <;> rename_i h
  · constructor
    · exact Or.inr
    · rintro (rfl | hk)
      · exact h
      · exact hk
  · simp [List.mem_orderedInsert]

theorem add_of_mem {b : Bitmap} {x : Nat} (h : x ∈ b.elems) : b.Add x = b := by
  simp [Add, h]

theorem add_sorted {b : Bitmap} (x : Nat) (hs : b.elems.Sorted (· < ·)) :
    (b.Add x).elems.Sorted (· < ·) := by
  unfold Add
  split <;> rename_i h
  · exact hs
  · obtain ⟨l1, l2, e, h1, h2⟩ := exists_split_fresh id x b.elems hs
      (fun a ha hax => h (by simpa [← hax] using ha))
    simp only [id] at h1 h2
    show List.Sorted _ (List.orderedInsert _ x b.elems)
    rw [e, orderedInsert_split _ x l1 l2 (fun c hc => by have := h1 c hc; omega)
      (fun c hc => by have := h2 c hc; omega)]
    have := pairwise_split_insert id x l1 l2 (by rw [← e]; exact hs) h1 h2
    exact this

theorem length_add {b : Bitmap} (x : Nat) :
    (b.Add x).elems.length = if x ∈ b.elems then b.elems.length else b.elems.length + 1 := by
  unfold Add
  split <;> simp [List.orderedInsert_length]

end Bitmap

/-! ## Facts about `Put` and `Get` that hold in every order -/

theorem bind_eq_ok {ε α β : Type} {x : Except ε α} {f : α → Except ε β} {b : β} :
    (x >>= f) = .ok b ↔ ∃ a, x = .ok a ∧ f a = .ok b := by
  cases x <;> simp [bind, Except.bind]

theorem goSetIndex_length {α : Type} {s s' : List α} {i : Int} {a : α}
    (h : goSetIndex s i a = .ok s') : s'.length = s.length := by
  unfold goSetIndex at h
  split at h
  · cases h
  · split at h
    · cases h
      simp
    · cases h

namespace TagStore

variable {V : Type} [Inhabited V]

theorem put_ok_keys {m m' : TagStore V} {k : Nat} {v : V} (h : m.Put k v = .ok m') :
    m'.keys = m.keys.Add k ∧ m'.values.length ≠ 0 := by
  unfold Put at h
  split at h
  · cases h
    simp
  · rename_i hne
    simp only at h
    split at h
    · split at h
      · simp only [bind_eq_ok] at h
        obtain ⟨st0, _, st1, _, st2, _, vals, h4, h5⟩ := h
        cases h5
        refine ⟨rfl, ?_⟩
        show vals.length ≠ 0
        rw [goSetIndex_length h4]
        exact hne
      · cases h
        simp
    · rename_i hf
      cases h
      refine ⟨?_, hne⟩
      rw [Bitmap.add_of_mem]
      apply Bitmap.containsAndRank_found.1
      simpa using hf

theorem put_present {m : TagStore V} {k : Nat} (v : V) (hne : m.values.length ≠ 0)
    (hk : k ∈ m.keys.elems) : m.Put k v = .ok m := by
  unfold Put
  rw [if_neg hne]
  simp [Bitmap.containsAndRank_found.2 hk]

theorem get_absent {m : TagStore V} {k : Nat} (hk : k ∉ m.keys.elems) :
    m.Get k = .ok (default, false) := by
  unfold Get
  split
  · rfl
  · have hf : (m.keys.ContainsAndRank k).1 = false := by
      cases hc : (m.keys.ContainsAndRank k).1
      · rfl
      · exact absurd (Bitmap.containsAndRank_found.1 hc) hk
    simp [hf]

/-- What every successful run of `Put` calls keeps: the value table is empty
only when the bitmap is, the enumeration is strictly ascending, and the keys
are the old keys together with the keys put. -/
theorem putAll_reach : ∀ (kvs : List (Nat × V)) (m m' : TagStore V),
    m.PutAll kvs = .ok m' → (m.values.length = 0 → m.keys.elems = []) →
    m.keys.elems.Sorted (· < ·) →
    (m'.values.length = 0 → m'.keys.elems = []) ∧ m'.keys.elems.Sorted (· < ·) ∧
      ∀ k, k ∈ m'.keys.elems ↔ k ∈ m.keys.elems ∨ k ∈ kvs.map Prod.fst
  | [], m, m', h, hj, hs => by
    simp only [PutAll] at h
    cases h
    exact ⟨hj, hs, by simp⟩
  | kv :: rest, m, m', h, _, hs => by
    simp only [PutAll] at h
    cases hp : m.Put kv.1 kv.2 with
    | error e => rw [hp] at h; cases h
    | ok m1 =>
      rw [hp] at h
      obtain ⟨hk, hv⟩ := put_ok_keys hp
      have hs1 : m1.keys.elems.Sorted (· < ·) := by
        rw [hk]
        exact Bitmap.add_sorted _ hs
      obtain ⟨r1, r2, r3⟩ := putAll_reach rest m1 m' h (fun h0 => absurd h0 hv) hs1
      refine ⟨r1, r2, ?_⟩
      intro k
      rw [r3, hk, Bitmap.mem_add]
      simp only [List.map_cons, List.mem_cons]
      tauto

theorem putAll_new_reach {kvs : List (Nat × V)} {s : TagStore V}
    (h : (NewTagStore : TagStore V).PutAll kvs = .ok s) :
    (s.values.length = 0 → s.keys.elems = []) ∧ s.keys.elems.Sorted (· < ·) ∧
      ∀ k, k ∈ s.keys.elems ↔ k ∈ kvs.map Prod.fst := by
  obtain ⟨r1, r2, r3⟩ := putAll_reach kvs NewTagStore s h (fun _ => rfl)
    (by simp [NewTagStore, Bitmap.New])
  refine ⟨r1, r2, ?_⟩
  intro k
  rw [r3]
  simp [NewTagStore, Bitmap.New]

end TagStore

/-! ## The code paths of `Put` and `Get` -/

theorem goIndex_ok {α : Type} {s : List α} {i : Nat} {a : α} (h : s[i]? = some a) :
    goIndex s (i : Int) = .ok a := by
  unfold goIndex
  have h0 : ¬ ((i : Int) < 0) := by omega
  rw [if_neg h0, Int.toNat_ofNat, h]

/-- The three statements `append(stores, nil)`, `copy(stores[r+1:], stores[r:len-1])`
and `stores[r] = v` insert `v` at index `r`, when `r <= len(stores)`. -/
theorem go_insert_split {α : Type} (A B : List α) (v d : α) :
    (goCopyWithin (A ++ B ++ [d]) ((A.length : Int) + 1) (A.length : Int)
        (((A ++ B ++ [d]).length : Int) - 1) >>= fun st => goSetIndex st (A.length : Int) v)
      = .ok (A ++ v :: B) := by
  have e1 : ((A.length : Int) + 1).toNat = A.length + 1 := by omega
  have e2 : (((A ++ B ++ [d]).length : Int) - 1).toNat = A.length + B.length := by
    simp only [List.length_append, List.length_singleton]
    omega
  have c1 : ¬ ((A.length : Int) + 1 < 0 ∨ (((A ++ B ++ [d]).length : Nat) : Int) < (A.length : Int) + 1) := by
    simp only [List.length_append, List.length_singleton]
    omega
  have c2 : ¬ ((A.length : Int) < 0 ∨ (((A ++ B ++ [d]).length : Int) - 1) < (A.length : Int) ∨
      (((A ++ B ++ [d]).length : Nat) : Int) < (((A ++ B ++ [d]).length : Int) - 1)) := by
    simp only [List.length_append, List.length_singleton]
    omega
  unfold goCopyWithin
  rw [if_neg c1, if_neg c2]
  simp only [e1, e2, Int.toNat_ofNat]
  have hsrc : List.drop A.length (List.take (A.length + B.length) (A ++ B ++ [d])) = B := by
    rw [List.append_assoc, List.take_append_eq_append_take]
    simp
  rw [hsrc]
  have hn : min ((A ++ B ++ [d]).length - (A.length + 1)) B.length = B.length := by
    simp only [List.length_append, List.length_singleton]
    omega
  rw [hn]
  have htk : List.take (A.length + 1) (A ++ B ++ [d]) = A ++ List.take 1 (B ++ [d]) := by
    rw [List.append_assoc, List.take_append_eq_append_take]
    simp
  have hdr : List.drop (A.length + 1 + B.length) (A ++ B ++ [d]) = [] := by
    apply List.drop_of_length_le
    simp only [List.length_append, List.length_singleton]
    omega
  rw [htk, hdr, List.take_length]
  obtain ⟨x, hx⟩ : ∃ x, List.take 1 (B ++ [d]) = [x] := by
    cases B <;> simp
  rw [hx]
  simp only [bind, Except.bind]
  unfold goSetIndex
  have c3 : ¬ ((A.length : Int) < 0) := by omega
  have c4 : (A.length : Int).toNat < (A ++ [x] ++ B ++ []).length := by
    simp only [List.length_append, List.length_singleton, Int.toNat_ofNat]
    omega
  rw [if_neg c3, if_pos c4]
  simp

theorem go_insert {α : Type} (stores : List α) (r : Nat) (hr : r ≤ stores.length) (v d : α) :
    (goCopyWithin (stores ++ [d]) ((r : Int) + 1) (r : Int)
        (((stores ++ [d]).length : Int) - 1) >>= fun st => goSetIndex st (r : Int) v)
      = .ok (stores.take r ++ v :: stores.drop r) := by
  have h := go_insert_split (stores.take r) (stores.drop r) v d
  rw [List.take_append_drop, List.length_take, Nat.min_eq_left hr] at h
  exact h

namespace Bitmap

theorem containsAndRank_present {b : Bitmap} {x : Nat} (h : highbits x ∈ b.containerKeys) :
    b.ContainsAndRank x = (decide (x ∈ b.elems),
      ((b.containerKeys.countP (· < highbits x) : Nat) : Int),
      (((b.container (highbits x)).countP (· ≤ lowbits x) : Nat) : Int)) := by
  unfold ContainsAndRank
  simp only
  have hn : ¬ getIndex b.containerKeys (highbits x) < 0 := by
    rw [getIndex_neg_iff]
    exact fun hc => hc h
  rw [if_neg hn]
  simp only [getIndex, h, if_true, mem_container]

theorem containsAndRank_no_container {b : Bitmap} {x : Nat} (h : highbits x ∉ b.containerKeys) :
    (b.ContainsAndRank x).1 = false ∧ (b.ContainsAndRank x).2.1 < 0 := by
  unfold ContainsAndRank
  simp only
  have hn : getIndex b.containerKeys (highbits x) < 0 := getIndex_neg_iff.2 h
  rw [if_pos hn]
  exact ⟨rfl, hn⟩

end Bitmap

namespace TagStore

variable {V : Type} [Inhabited V]

/-- The first-insertion path and the `else` path of `Put` both append the
group `[value]` to the value table. -/
theorem put_append {m : TagStore V} {k : Nat} (v : V)
    (h : highbits k ∉ m.keys.containerKeys) :
    m.Put k v = .ok { keys := m.keys.Add k, values := m.values ++ [[v]] } := by
  unfold Put
  split
  · rfl
  · obtain ⟨h1, h2⟩ := Bitmap.containsAndRank_no_container h
    have h3 : ¬ (m.keys.ContainsAndRank k).2.1 ≥ 0 := by omega
    simp only [h1, Bool.not_false, if_true, if_neg h3]

/-- The insert path of `Put`: an absent key of an existing container whose
index `i` addresses a group and whose rank `r` is at most the group's length. -/
theorem put_existing {m : TagStore V} {k : Nat} (v : V) {stores : List V}
    (hk : k ∉ m.keys.elems) (h : highbits k ∈ m.keys.containerKeys)
    (hi : m.values[m.keys.containerKeys.countP (· < highbits k)]? = some stores)
    (hr : (m.keys.container (highbits k)).countP (· ≤ lowbits k) ≤ stores.length) :
    m.Put k v = .ok ⟨m.keys.Add k,
      m.values.set (m.keys.containerKeys.countP (· < highbits k))
        (stores.take ((m.keys.container (highbits k)).countP (· ≤ lowbits k)) ++ v ::
          stores.drop ((m.keys.container (highbits k)).countP (· ≤ lowbits k)))⟩ := by
  have hlen : m.keys.containerKeys.countP (· < highbits k) < m.values.length := by
    rcases Nat.lt_or_ge (m.keys.containerKeys.countP (· < highbits k)) m.values.length with c | c
    · exact c
    · rw [List.getElem?_eq_none c] at hi
      cases hi
  have hne : ¬ m.values.length = 0 := by omega
  unfold Put
  rw [if_neg hne]
  simp only [Bitmap.containsAndRank_present h, hk, decide_False, Bool.not_false, if_true]
  have hge : ((m.keys.containerKeys.countP (· < highbits k) : Nat) : Int) ≥ 0 := by omega
  rw [if_pos hge]
  rw [goIndex_ok hi]
  simp only [bind, Except.bind]
  have hins := go_insert stores _ hr v (default : V)
  simp only [bind, Except.bind] at hins
  split
  · rename_i e st heq
    rw [heq] at hins
    cases hins
  · rename_i st heq
    rw [heq] at hins
    simp only at hins
    rw [hins]
    simp only [goSetIndex]
    have c3 : ¬ (((m.keys.containerKeys.countP (· < highbits k) : Nat) : Int) < 0) := by omega
    rw [if_neg c3, Int.toNat_ofNat, if_pos hlen]
    rfl

/-- The read path of `Get` for a present key. -/
theorem get_present {m : TagStore V} {k : Nat} {stores : List V} {v : V}
    (hk : k ∈ m.keys.elems)
    (hi : m.values[m.keys.containerKeys.countP (· < highbits k)]? = some stores)
    (hr : ∃ r, (m.keys.container (highbits k)).countP (· ≤ lowbits k) = r + 1 ∧
      stores[r]? = some v) :
    m.Get k = .ok (v, true) := by
  obtain ⟨r, hr1, hr2⟩ := hr
  have hlen : m.keys.containerKeys.countP (· < highbits k) < m.values.length := by
    rcases Nat.lt_or_ge (m.keys.containerKeys.countP (· < highbits k)) m.values.length with c | c
    · exact c
    · rw [List.getElem?_eq_none c] at hi
      cases hi
  have hne : ¬ m.values.length = 0 := by omega
  have h : highbits k ∈ m.keys.containerKeys := Bitmap.mem_containerKeys.2 ⟨k, hk, rfl⟩
  unfold Get
  rw [if_neg hne]
  simp only [Bitmap.containsAndRank_present h, hk, decide_True, Bool.not_true, Bool.false_eq_true,
    if_false]
  rw [goIndex_ok hi]
  simp only [bind, Except.bind]
  have e : (((m.keys.container (highbits k)).countP (· ≤ lowbits k) : Nat) : Int) - 1 = (r : Int) := by
    rw [hr1]
    omega
  rw [e, goIndex_ok hr2]
  rfl

end TagStore

/-! ## Tables of pairs ascending by key -/

section Tables

variable {V : Type}

theorem sorted_lt_ext {l1 l2 : List Nat} (h1 : l1.Pairwise (· < ·)) (h2 : l2.Pairwise (· < ·))
    (h : ∀ a, a ∈ l1 ↔ a ∈ l2) : l1 = l2 := by
  have n1 : l1.Nodup := h1.imp (fun hab => Nat.ne_of_lt hab)
  have n2 : l2.Nodup := h2.imp (fun hab => Nat.ne_of_lt hab)
  exact List.eq_of_perm_of_sorted ((List.perm_ext_iff_of_nodup n1 n2).2 h) h1 h2

theorem mem_prefixesOf {ps : List (Nat × V)} {p : Nat} :
    p ∈ prefixesOf ps ↔ ∃ a ∈ ps, highbits a.1 = p := by
  simp [prefixesOf, List.mem_dedup]

theorem prefixesOf_sorted {ps : List (Nat × V)} (hs : ps.Pairwise (fun a b => a.1 < b.1)) :
    (prefixesOf ps).Pairwise (· < ·) := by
  have hle : (ps.map (fun kv => highbits kv.1)).Pairwise (· ≤ ·) := by
    rw [List.pairwise_map]
    exact hs.imp (fun hab => highbits_mono (Nat.le_of_lt hab))
  have h1 : (prefixesOf ps).Pairwise (· ≤ ·) := hle.sublist (List.dedup_sublist _)
  have h2 : (prefixesOf ps).Pairwise (· ≠ ·) := List.nodup_dedup _
  exact (h1.and h2).imp (fun hab => Nat.lt_of_le_of_ne hab.1 hab.2)

theorem prefixesOf_insert_old {l1 l2 : List (Nat × V)} {k : Nat} {v : V}
    (hs : (l1 ++ (k, v) :: l2).Pairwise (fun a b => a.1 < b.1))
    (hs0 : (l1 ++ l2).Pairwise (fun a b => a.1 < b.1))
    (h : highbits k ∈ prefixesOf (l1 ++ l2)) :
    prefixesOf (l1 ++ (k, v) :: l2) = prefixesOf (l1 ++ l2) := by
  apply sorted_lt_ext (prefixesOf_sorted hs) (prefixesOf_sorted hs0)
  intro p
  rw [mem_prefixesOf, mem_prefixesOf]
  constructor
  · rintro ⟨a, ha, hp⟩
    rcases List.mem_append.1 ha with ha | ha
    · exact ⟨a, List.mem_append_left _ ha, hp⟩
    · rcases List.mem_cons.1 ha with rfl | ha
      · rw [← hp]
        exact mem_prefixesOf.1 h
      · exact ⟨a, List.mem_append_right _ ha, hp⟩
  · rintro ⟨a, ha, hp⟩
    rcases List.mem_append.1 ha with ha | ha
    · exact ⟨a, List.mem_append_left _ ha, hp⟩
    · exact ⟨a, List.mem_append_right _ (List.mem_cons_of_mem _ ha), hp⟩

theorem prefixesOf_insert_new {l1 l2 : List (Nat × V)} {k : Nat} {v : V}
    (hs : (l1 ++ (k, v) :: l2).Pairwise (fun a b => a.1 < b.1))
    (hs0 : (l1 ++ l2).Pairwise (fun a b => a.1 < b.1))
    (h : ∀ p ∈ prefixesOf (l1 ++ l2), p < highbits k) :
    prefixesOf (l1 ++ (k, v) :: l2) = prefixesOf (l1 ++ l2) ++ [highbits k] := by
  have hr : (prefixesOf (l1 ++ l2) ++ [highbits k]).Pairwise (· < ·) := by
    rw [List.pairwise_append]
    refine ⟨prefixesOf_sorted hs0, List.pairwise_singleton _ _, ?_⟩
    intro a ha b hb
    rw [List.mem_singleton] at hb
    rw [hb]
    exact h a ha
  apply sorted_lt_ext (prefixesOf_sorted hs) hr
  intro p
  rw [List.mem_append, List.mem_singleton, mem_prefixesOf, mem_prefixesOf]
  constructor
  · rintro ⟨a, ha, hp⟩
    rcases List.mem_append.1 ha with ha | ha
    · exact Or.inl ⟨a, List.mem_append_left _ ha, hp⟩
    · rcases List.mem_cons.1 ha with rfl | ha
      · exact Or.inr hp.symm
      · exact Or.inl ⟨a, List.mem_append_right _ ha, hp⟩
  · rintro (⟨a, ha, hp⟩ | hp)
    · rcases List.mem_append.1 ha with ha | ha
      · exact ⟨a, List.mem_append_left _ ha, hp⟩
      · exact ⟨a, List.mem_append_right _ (List.mem_cons_of_mem _ ha), hp⟩
    · exact ⟨(k, v), List.mem_append_right _ (List.mem_cons_self _ _), hp.symm⟩

theorem groupOf_append (l1 l2 : List (Nat × V)) (p : Nat) :
    groupOf (l1 ++ l2) p = groupOf l1 p ++ groupOf l2 p := by
  simp [groupOf]

theorem groupOf_insert_ne (l1 l2 : List (Nat × V)) {k p : Nat} (v : V) (h : highbits k ≠ p) :
    groupOf (l1 ++ (k, v) :: l2) p = groupOf (l1 ++ l2) p := by
  simp [groupOf, List.filter_cons, h]

theorem groupOf_insert_eq (l1 l2 : List (Nat × V)) (k : Nat) (v : V) :
    groupOf (l1 ++ (k, v) :: l2) (highbits k) =
      groupOf l1 (highbits k) ++ v :: groupOf l2 (highbits k) := by
  simp [groupOf, List.filter_cons]

theorem groupOf_length (ps : List (Nat × V)) (p : Nat) :
    (groupOf ps p).length = (ps.filter (fun kv => highbits kv.1 = p)).length := by
  simp [groupOf]

theorem groupOf_eq_nil {ps : List (Nat × V)} {p : Nat} (h : p ∉ prefixesOf ps) :
    groupOf ps p = [] := by
  rw [mem_prefixesOf] at h
  simp only [groupOf, List.map_eq_nil_iff, List.filter_eq_nil_iff, decide_eq_true_eq]
  intro a ha hp
  exact h ⟨a, ha, hp⟩

end Tables

/-! ## `Put` keeps the store a mirror of the pairs, when groups ascend -/

section MirrorStep

variable {V : Type}

theorem Mirrors.containerKeys_eq {s : TagStore V} {ps : List (Nat × V)} (hm : Mirrors s ps) :
    s.keys.containerKeys = prefixesOf ps := by
  unfold Bitmap.containerKeys prefixesOf
  rw [hm.keys, List.map_map]
  rfl

theorem Mirrors.container_eq {s : TagStore V} {ps : List (Nat × V)} (hm : Mirrors s ps)
    (hb : Nat) :
    s.keys.container hb =
      (ps.filter (fun kv => highbits kv.1 = hb)).map (fun kv => lowbits kv.1) := by
  unfold Bitmap.container
  rw [hm.keys, List.filter_map, List.map_map]
  rfl

theorem Mirrors.not_mem_elems {s : TagStore V} {ps : List (Nat × V)} (hm : Mirrors s ps)
    {k : Nat} (hk : ∀ a ∈ ps, a.1 ≠ k) : k ∉ s.keys.elems := by
  rw [hm.keys, List.mem_map]
  rintro ⟨a, ha, hak⟩
  exact hk a ha hak

theorem Mirrors.add_elems {s : TagStore V} {l1 l2 : List (Nat × V)} (hm : Mirrors s (l1 ++ l2))
    {k : Nat} (v : V) (h1 : ∀ a ∈ l1, a.1 < k) (h2 : ∀ a ∈ l2, k < a.1) :
    (s.keys.Add k).elems = (l1 ++ (k, v) :: l2).map Prod.fst := by
  have hk : k ∉ s.keys.elems := by
    apply hm.not_mem_elems
    intro a ha
    rcases List.mem_append.1 ha with ha | ha
    · have := h1 a ha
      omega
    · have := h2 a ha
      omega
  unfold Bitmap.Add
  rw [if_neg hk]
  show List.orderedInsert _ k s.keys.elems = _
  rw [hm.keys, List.map_append, orderedInsert_split]
  · simp
  · intro b hb
    obtain ⟨a, ha, rfl⟩ := List.mem_map.1 hb
    have := h1 a ha
    omega
  · intro b hb
    obtain ⟨a, ha, rfl⟩ := List.mem_map.1 hb
    have := h2 a ha
    omega

/-- The rank that `ContainsAndRank` reports for an absent key is the number of
smaller keys of its group. -/
theorem Mirrors.rank_fresh {s : TagStore V} {l1 l2 : List (Nat × V)} (hm : Mirrors s (l1 ++ l2))
    {k : Nat} (h1 : ∀ a ∈ l1, a.1 < k) (h2 : ∀ a ∈ l2, k < a.1) :
    (s.keys.container (highbits k)).countP (· ≤ lowbits k) =
      (groupOf l1 (highbits k)).length := by
  rw [hm.container_eq, List.filter_append, List.map_append, countP_le_split, groupOf_length,
    List.length_map]
  · intro b hb
    obtain ⟨a, ha, rfl⟩ := List.mem_map.1 hb
    rw [List.mem_filter, decide_eq_true_eq] at ha
    exact Nat.le_of_lt (lowbits_lt_of_lt ha.2 (h1 a ha.1))
  · intro b hb
    obtain ⟨a, ha, rfl⟩ := List.mem_map.1 hb
    rw [List.mem_filter, decide_eq_true_eq] at ha
    exact lowbits_lt_of_lt ha.2.symm (h2 a ha.1)

/-- The group of an existing prefix sits in the value table at the index that
`getIndex` reports. -/
theorem Mirrors.group_at {s : TagStore V} {ps : List (Nat × V)} (hm : Mirrors s ps)
    {hb : Nat} (h : hb ∈ prefixesOf ps) :
    ∃ m1 m2, prefixesOf ps = m1 ++ hb :: m2 ∧ hb ∉ m1 ∧ hb ∉ m2 ∧
      s.keys.containerKeys.countP (· < hb) = m1.length ∧
      s.values = m1.map (groupOf ps) ++ groupOf ps hb :: m2.map (groupOf ps) := by
  obtain ⟨m1, m2, e, h1, h2⟩ := exists_split_mem id hb (prefixesOf ps)
    (prefixesOf_sorted hm.sorted) h
  simp only [id] at h1 h2
  refine ⟨m1, m2, e, fun hc => Nat.lt_irrefl _ (h1 _ hc), fun hc => Nat.lt_irrefl _ (h2 _ hc),
    ?_, ?_⟩
  · rw [hm.containerKeys_eq, e]
    apply countP_lt_split _ _ _ h1
    intro a ha
    rcases List.mem_cons.1 ha with rfl | ha
    · exact Nat.le_refl _
    · exact Nat.le_of_lt (h2 a ha)
  · rw [hm.values]
    unfold tableOf
    rw [e, List.map_append, List.map_cons]

theorem Mirrors.values_length_ne_zero {s : TagStore V} {ps : List (Nat × V)}
    (hm : Mirrors s ps) {a : Nat × V} (ha : a ∈ ps) : s.values.length ≠ 0 := by
  have hp : highbits a.1 ∈ prefixesOf ps := mem_prefixesOf.2 ⟨a, ha, rfl⟩
  rw [hm.values]
  unfold tableOf
  rw [List.length_map]
  intro h0
  rw [List.length_eq_zero] at h0
  rw [h0] at hp
  cases hp

variable [Inhabited V]

/-- A key that opens a new highest group: the store appends `[v]`. -/
theorem Mirrors.put_new_group {s : TagStore V} {l1 l2 : List (Nat × V)}
    (hm : Mirrors s (l1 ++ l2)) {k : Nat} (v : V)
    (h1 : ∀ a ∈ l1, a.1 < k) (h2 : ∀ a ∈ l2, k < a.1)
    (hg : ∀ p ∈ prefixesOf (l1 ++ l2), p < highbits k) :
    ∃ s', s.Put k v = .ok s' ∧ Mirrors s' (l1 ++ (k, v) :: l2) := by
  have hs' := pairwise_split_insert (fun a : Nat × V => a.1) (k, v) l1 l2 hm.sorted h1 h2
  have hnot : highbits k ∉ prefixesOf (l1 ++ l2) := fun hc => Nat.lt_irrefl _ (hg _ hc)
  refine ⟨_, TagStore.put_append v (by rw [hm.containerKeys_eq]; exact hnot), hs',
    hm.add_elems v h1 h2, ?_⟩
  show s.values ++ [[v]] = tableOf (l1 ++ (k, v) :: l2)
  rw [hm.values]
  unfold tableOf
  rw [prefixesOf_insert_new hs' hm.sorted hg, List.map_append, List.map_singleton,
    groupOf_insert_eq]
  have e1 : groupOf l1 (highbits k) = [] := by
    apply groupOf_eq_nil
    intro hc
    apply hnot
    obtain ⟨a, ha, hp⟩ := mem_prefixesOf.1 hc
    exact mem_prefixesOf.2 ⟨a, List.mem_append_left _ ha, hp⟩
  have e2 : groupOf l2 (highbits k) = [] := by
    apply groupOf_eq_nil
    intro hc
    apply hnot
    obtain ⟨a, ha, hp⟩ := mem_prefixesOf.1 hc
    exact mem_prefixesOf.2 ⟨a, List.mem_append_right _ ha, hp⟩
  rw [e1, e2]
  congr 1
  apply List.map_congr_left
  intro p hp
  apply (groupOf_insert_ne l1 l2 v _).symm
  intro hc
  exact hnot (hc ▸ hp)

/-- A key of an existing group: the store inserts `v` at the rank. -/
theorem Mirrors.put_existing_group {s : TagStore V} {l1 l2 : List (Nat × V)}
    (hm : Mirrors s (l1 ++ l2)) {k : Nat} (v : V)
    (h1 : ∀ a ∈ l1, a.1 < k) (h2 : ∀ a ∈ l2, k < a.1)
    (hg : highbits k ∈ prefixesOf (l1 ++ l2)) :
    ∃ s', s.Put k v = .ok s' ∧ Mirrors s' (l1 ++ (k, v) :: l2) := by
  have hs' := pairwise_split_insert (fun a : Nat × V => a.1) (k, v) l1 l2 hm.sorted h1 h2
  have hk : k ∉ s.keys.elems := by
    apply hm.not_mem_elems
    intro a ha
    rcases List.mem_append.1 ha with ha | ha
    · have := h1 a ha
      omega
    · have := h2 a ha
      omega
  obtain ⟨m1, m2, e, hn1, hn2, hidx, hvals⟩ := hm.group_at hg
  have hi : s.values[s.keys.containerKeys.countP (· < highbits k)]? =
      some (groupOf (l1 ++ l2) (highbits k)) := by
    rw [hidx, hvals]
    have hl : m1.length = (m1.map (groupOf (l1 ++ l2))).length := by simp
    rw [hl, List.getElem?_append_right (Nat.le_refl _)]
    simp
  have hrank := hm.rank_fresh h1 h2
  have hr : (s.keys.container (highbits k)).countP (· ≤ lowbits k) ≤
      (groupOf (l1 ++ l2) (highbits k)).length := by
    rw [hrank, groupOf_append, List.length_append]
    omega
  refine ⟨_, TagStore.put_existing v hk (by rw [hm.containerKeys_eq]; exact hg) hi hr, hs',
    hm.add_elems v h1 h2, ?_⟩
  show s.values.set _ _ = tableOf (l1 ++ (k, v) :: l2)
  rw [hrank, groupOf_append, List.take_left, List.drop_left, hidx, hvals]
  unfold tableOf
  rw [prefixesOf_insert_old hs' hm.sorted hg, e, List.map_append, List.map_cons,
    groupOf_insert_eq]
  have hl : m1.length = (m1.map (groupOf (l1 ++ l2))).length := by simp
  rw [hl, List.set_append_right _ _ (Nat.le_refl _)]
  simp only [Nat.sub_self, List.set_cons_zero]
  have c1 : m1.map (groupOf (l1 ++ (k, v) :: l2)) = m1.map (groupOf (l1 ++ l2)) := by
    apply List.map_congr_left
    intro p hp
    apply groupOf_insert_ne
    intro hc
    exact hn1 (hc ▸ hp)
  have c2 : m2.map (groupOf (l1 ++ (k, v) :: l2)) = m2.map (groupOf (l1 ++ l2)) := by
    apply List.map_congr_left
    intro p hp
    apply groupOf_insert_ne
    intro hc
    exact hn2 (hc ▸ hp)
  rw [c1, c2]

/-- A fresh key whose group exists or is the new highest one: `Put` succeeds
and the store mirrors the pairs with the new pair at its place. -/
theorem Mirrors.put_fresh {s : TagStore V} {ps : List (Nat × V)} (hm : Mirrors s ps)
    {k : Nat} (v : V) (hk : ∀ a ∈ ps, a.1 ≠ k)
    (hg : highbits k ∈ prefixesOf ps ∨ ∀ p ∈ prefixesOf ps, p < highbits k) :
    ∃ s' ps', s.Put k v = .ok s' ∧ Mirrors s' ps' ∧ ps'.Perm ((k, v) :: ps) := by
  obtain ⟨l1, l2, e, h1, h2⟩ := exists_split_fresh (fun a : Nat × V => a.1) k ps hm.sorted hk
  subst e
  rcases hg with hg | hg
  · obtain ⟨s', hp, hm'⟩ := hm.put_existing_group v h1 h2 hg
    exact ⟨s', _, hp, hm', List.perm_middle⟩
  · obtain ⟨s', hp, hm'⟩ := hm.put_new_group v h1 h2 hg
    exact ⟨s', _, hp, hm', List.perm_middle⟩

/-- In a mirror, `Get` of a present key returns the value paired with it. -/
theorem Mirrors.get_mem {s : TagStore V} {ps : List (Nat × V)} (hm : Mirrors s ps)
    {k : Nat} {v : V} (h : (k, v) ∈ ps) : s.Get k = .ok (v, true) := by
  obtain ⟨l1, l2, e, h1, h2⟩ := exists_split_mem (fun a : Nat × V => a.1) (k, v) ps hm.sorted h
  simp only at h1 h2
  have hk : k ∈ s.keys.elems := by
    rw [hm.keys]
    exact List.mem_map.2 ⟨(k, v), h, rfl⟩
  have hg : highbits k ∈ prefixesOf ps := mem_prefixesOf.2 ⟨(k, v), h, rfl⟩
  obtain ⟨m1, m2, _, _, _, hidx, hvals⟩ := hm.group_at hg
  have hi : s.values[s.keys.containerKeys.countP (· < highbits k)]? =
      some (groupOf ps (highbits k)) := by
    rw [hidx, hvals]
    have hl : m1.length = (m1.map (groupOf ps)).length := by simp
    rw [hl, List.getElem?_append_right (Nat.le_refl _)]
    simp
  apply TagStore.get_present hk hi
  refine ⟨(groupOf l1 (highbits k)).length, ?_, ?_⟩
  · rw [hm.container_eq, e]
    have : (l1 ++ (k, v) :: l2) = (l1 ++ [(k, v)]) ++ l2 := by simp
    rw [this, List.filter_append, List.map_append, countP_le_split]
    · simp [groupOf, List.filter_cons]
    · intro b hb
      obtain ⟨a, ha, rfl⟩ := List.mem_map.1 hb
      rw [List.mem_filter, decide_eq_true_eq] at ha
      rcases List.mem_append.1 ha.1 with ha1 | ha1
      · exact Nat.le_of_lt (lowbits_lt_of_lt ha.2 (h1 a ha1))
      · rw [List.mem_singleton] at ha1
        rw [ha1]
    · intro b hb
      obtain ⟨a, ha, rfl⟩ := List.mem_map.1 hb
      rw [List.mem_filter, decide_eq_true_eq] at ha
      exact lowbits_lt_of_lt ha.2.symm (h2 a ha.1)
  · rw [e, groupOf_insert_eq, List.getElem?_append_right (Nat.le_refl _)]
    simp

theorem groupsAscend_congr : ∀ (ks seen seen' : List Nat),
    (∀ x, x ∈ seen ↔ x ∈ seen') → GroupsAscend seen ks → GroupsAscend seen' ks
  | [], _, _, _, _ => trivial
  | k :: rest, seen, seen', h, hg => by
    obtain ⟨h1, h2⟩ := hg
    refine ⟨?_, groupsAscend_congr rest (k :: seen) (k :: seen') ?_ h2⟩
    · rcases h1 with h1 | h1
      · left
        obtain ⟨a, ha, hp⟩ := List.mem_map.1 h1
        exact List.mem_map.2 ⟨a, (h a).1 ha, hp⟩
      · right
        intro a ha
        exact h1 a ((h a).2 ha)
    · intro x
      simp only [List.mem_cons, h x]

/-- A run of `Put` calls whose new groups ascend never fails, and the store
ends as the mirror of the first writes. -/
theorem Mirrors.putAll : ∀ (kvs : List (Nat × V)) (s : TagStore V) (ps : List (Nat × V)),
    Mirrors s ps → GroupsAscend (ps.map Prod.fst) (kvs.map Prod.fst) →
    ∃ s' ps', s.PutAll kvs = .ok s' ∧ Mirrors s' ps' ∧
      ps'.Perm (ps ++ (firstWrites kvs).filter (fun a => a.1 ∉ ps.map Prod.fst))
  | [], s, ps, hm, _ => ⟨s, ps, rfl, hm, by simp [firstWrites]⟩
  | kv :: rest, s, ps, hm, hg => by
    obtain ⟨hg1, hg2⟩ := hg
    by_cases hk : kv.1 ∈ ps.map Prod.fst
    · obtain ⟨a, ha, hak⟩ := List.mem_map.1 hk
      have hput : s.Put kv.1 kv.2 = .ok s :=
        TagStore.put_present kv.2 (hm.values_length_ne_zero ha) (by rw [hm.keys]; exact hk)
      have hg3 : GroupsAscend (ps.map Prod.fst) (rest.map Prod.fst) := by
        apply groupsAscend_congr _ _ _ _ hg2
        intro x
        constructor
        · rintro hx
          rcases List.mem_cons.1 hx with rfl | hx
          · exact hk
          · exact hx
        · exact List.mem_cons_of_mem _
      obtain ⟨s', ps', h1, h2, h3⟩ := Mirrors.putAll rest s ps hm hg3
      refine ⟨s', ps', ?_, h2, ?_⟩
      · simp only [TagStore.PutAll, hput]
        exact h1
      · refine h3.trans (List.Perm.append_left _ (List.Perm.of_eq ?_))
        simp only [firstWrites, List.filter_cons, hk, not_true_eq_false, decide_False,
          Bool.false_eq_true, if_false, List.filter_filter]
        apply List.filter_congr
        intro x _
        by_cases hx : x.1 ∈ ps.map Prod.fst
        · simp [hx]
        · have : x.1 ≠ kv.1 := fun hc => hx (hc ▸ hk)
          simp [hx, this]
    · have hfresh : ∀ a ∈ ps, a.1 ≠ kv.1 := fun a ha hc => hk (List.mem_map.2 ⟨a, ha, hc⟩)
      have hgrp : highbits kv.1 ∈ prefixesOf ps ∨ ∀ p ∈ prefixesOf ps, p < highbits kv.1 := by
        rcases hg1 with h | h
        · left
          obtain ⟨x, hx, hp⟩ := List.mem_map.1 h
          obtain ⟨a, ha, rfl⟩ := List.mem_map.1 hx
          exact mem_prefixesOf.2 ⟨a, ha, hp⟩
        · right
          intro p hp
          obtain ⟨a, ha, rfl⟩ := mem_prefixesOf.1 hp
          exact h a.1 (List.mem_map.2 ⟨a, ha, rfl⟩)
      obtain ⟨s1, ps1, hput, hm1, hperm⟩ := hm.put_fresh kv.2 hfresh hgrp
      have hmem : ∀ x, x ∈ ps1.map Prod.fst ↔ x = kv.1 ∨ x ∈ ps.map Prod.fst := by
        intro x
        rw [(hperm.map Prod.fst).mem_iff]
        simp
      have hg3 : GroupsAscend (ps1.map Prod.fst) (rest.map Prod.fst) := by
        apply groupsAscend_congr _ _ _ _ hg2
        intro x
        rw [hmem x, List.mem_cons]
      obtain ⟨s', ps', h1, h2, h3⟩ := Mirrors.putAll rest s1 ps1 hm1 hg3
      refine ⟨s', ps', ?_, h2, ?_⟩
      · simp only [TagStore.PutAll, hput]
        exact h1
      · refine h3.trans ?_
        have e1 : (firstWrites (kv :: rest)).filter (fun a => a.1 ∉ ps.map Prod.fst) =
            kv :: (firstWrites rest).filter (fun a => a.1 ∉ ps1.map Prod.fst) := by
          simp only [firstWrites, List.filter_cons, hk, not_false_eq_true, decide_True,
            if_true, List.filter_filter]
          congr 1
          apply List.filter_congr
          intro x _
          by_cases hx : x.1 ∈ ps.map Prod.fst
          · have hx1 : x.1 ∈ ps1.map Prod.fst := (hmem x.1).2 (Or.inr hx)
            simp [-List.mem_map, hx, hx1]
          · by_cases hx2 : x.1 = kv.1
            · have hx1 : x.1 ∈ ps1.map Prod.fst := (hmem x.1).2 (Or.inl hx2)
              have hx3 : kv.1 ∈ ps1.map Prod.fst := hx2 ▸ hx1
              simp [-List.mem_map, hx2, hx3]
            · have hx1 : x.1 ∉ ps1.map Prod.fst := fun hc =>
                (((hmem x.1).1 hc).elim hx2 hx)
              simp [-List.mem_map, hx, hx2, hx1]
        rw [e1]
        refine (List.Perm.append_right _ hperm).trans ?_
        simp only [List.cons_append]
        exact List.perm_middle.symm

end MirrorStep

/-! ## Runs from the empty store -/

section Runs

variable {V : Type}

theorem firstWrites_of_nodup : ∀ (kvs : List (Nat × V)), (kvs.map Prod.fst).Nodup →
    firstWrites kvs = kvs
  | [], _ => rfl
  | kv :: rest, h => by
    rw [List.map_cons, List.nodup_cons] at h
    rw [firstWrites, firstWrites_of_nodup rest h.2, List.filter_eq_self.2]
    intro a ha
    rw [decide_eq_true_eq]
    intro hc
    exact h.1 (List.mem_map.2 ⟨a, ha, hc⟩)

theorem mem_firstWrites_first : ∀ (pre post : List (Nat × V)) (k : Nat) (v : V),
    k ∉ pre.map Prod.fst → (k, v) ∈ firstWrites (pre ++ (k, v) :: post)
  | [], _, _, _, _ => by simp [firstWrites]
  | a :: pre, post, k, v, h => by
    rw [List.map_cons, List.mem_cons, not_or] at h
    rw [List.cons_append, firstWrites, List.mem_cons]
    right
    rw [List.mem_filter, decide_eq_true_eq]
    exact ⟨mem_firstWrites_first pre post k v h.2, h.1⟩

/-- A list strictly ascending by key is the key-sort of any permutation of it. -/
theorem eq_sortByKey {ps kvs : List (Nat × V)} (hs : ps.Pairwise (fun a b => a.1 < b.1))
    (hp : ps.Perm kvs) : ps = sortByKey kvs := by
  haveI : IsAntisymm (Nat × V) (fun a b => a.1 < b.1) :=
    ⟨fun _ _ h1 h2 => absurd h1 (Nat.lt_asymm h2)⟩
  haveI : IsTotal (Nat × V) (fun a b => a.1 ≤ b.1) := ⟨fun a b => Nat.le_total a.1 b.1⟩
  haveI : IsTrans (Nat × V) (fun a b => a.1 ≤ b.1) := ⟨fun _ _ _ h1 h2 => Nat.le_trans h1 h2⟩
  have hperm : (sortByKey kvs).Perm kvs := List.perm_insertionSort _ kvs
  have hle : (sortByKey kvs).Pairwise (fun a b => a.1 ≤ b.1) := List.sorted_insertionSort _ kvs
  have hnd : (sortByKey kvs).Pairwise (fun a b => a.1 ≠ b.1) := by
    have h1 : (ps.map Prod.fst).Nodup := by
      rw [List.Nodup, List.pairwise_map]
      exact hs.imp (fun hab => Nat.ne_of_lt hab)
    have h2 : ((sortByKey kvs).map Prod.fst).Nodup :=
      (((hp.trans hperm.symm).map Prod.fst).nodup_iff).1 h1
    rw [List.Nodup, List.pairwise_map] at h2
    exact h2
  have hlt : (sortByKey kvs).Pairwise (fun a b => a.1 < b.1) :=
    (hle.and hnd).imp (fun hab => Nat.lt_of_le_of_ne hab.1 hab.2)
  exact List.eq_of_perm_of_sorted (hp.trans hperm.symm) hs hlt

theorem groupsAscend_one_group (h : Nat) : ∀ (ks seen : List Nat),
    (∀ k ∈ seen, highbits k = h) → (∀ k ∈ ks, highbits k = h) → GroupsAscend seen ks
  | [], _, _, _ => trivial
  | k :: rest, seen, h1, h2 => by
    have hk : highbits k = h := h2 k (List.mem_cons_self _ _)
    refine ⟨?_, groupsAscend_one_group h rest (k :: seen) ?_
      (fun x hx => h2 x (List.mem_cons_of_mem _ hx))⟩
    · cases seen with
      | nil => right; intro x hx; cases hx
      | cons a t =>
        left
        exact List.mem_map.2 ⟨a, List.mem_cons_self _ _, by
          rw [h1 a (List.mem_cons_self _ _), hk]⟩
    · intro x hx
      rcases List.mem_cons.1 hx with rfl | hx
      · exact hk
      · exact h1 x hx

theorem tableOf_one_group {ps : List (Nat × V)} (h : Nat) (hne : ps ≠ [])
    (hs : ps.Pairwise (fun a b => a.1 < b.1)) (hh : ∀ a ∈ ps, highbits a.1 = h) :
    tableOf ps = [ps.map Prod.snd] := by
  have hp : prefixesOf ps = [h] := by
    apply sorted_lt_ext (prefixesOf_sorted hs) (List.pairwise_singleton _ _)
    intro p
    rw [mem_prefixesOf, List.mem_singleton]
    constructor
    · rintro ⟨a, ha, rfl⟩
      exact hh a ha
    · rintro rfl
      obtain ⟨a, ha⟩ := List.exists_mem_of_ne_nil ps hne
      exact ⟨a, ha, hh a ha⟩
  unfold tableOf
  rw [hp, List.map_singleton, groupOf, List.filter_eq_self.2]
  intro a ha
  rw [decide_eq_true_eq]
  exact hh a ha

theorem mirrors_new : Mirrors (NewTagStore : TagStore V) [] :=
  ⟨List.Pairwise.nil, rfl, by simp [NewTagStore, tableOf, prefixesOf]⟩

variable [Inhabited V]

/-- From the empty store, a run whose new groups ascend succeeds and ends as
the mirror of its first writes. -/
theorem putAll_new_mirrors (kvs : List (Nat × V)) (hg : GroupsAscend [] (kvs.map Prod.fst)) :
    ∃ s ps, (NewTagStore : TagStore V).PutAll kvs = .ok s ∧ Mirrors s ps ∧
      ps.Perm (firstWrites kvs) := by
  obtain ⟨s, ps, h1, h2, h3⟩ := Mirrors.putAll kvs NewTagStore [] mirrors_new hg
  refine ⟨s, ps, h1, h2, h3.trans (List.Perm.of_eq ?_)⟩
  simp

end Runs

/-! ## The insert path of `Put`, from what `ContainsAndRank` reports -/

section InsertPath

variable {V : Type}

theorem countP_le_eq_countP_lt {l : List Nat} {x : Nat} (h : x ∉ l) :
    l.countP (· ≤ x) = l.countP (· < x) := by
  apply List.countP_congr
  intro a ha
  have hne : a ≠ x := fun hc => h (hc ▸ ha)
  simp only [decide_eq_true_eq]
  omega

/-- When `ContainsAndRank` reports `(false, i, r)` with a non-negative index,
the container of the key exists, the key is absent, `i` is the position of
the container and `r` is the number of its keys below the key. -/
theorem Bitmap.reported_absent {b : Bitmap} {k i r : Nat}
    (hc : b.ContainsAndRank k = (false, (i : Int), (r : Int))) :
    highbits k ∈ b.containerKeys ∧ k ∉ b.elems ∧
      i = b.containerKeys.countP (· < highbits k) ∧
      r = (b.container (highbits k)).countP (· ≤ lowbits k) ∧
      r = (b.container (highbits k)).countP (· < lowbits k) := by
  by_cases h : highbits k ∈ b.containerKeys
  · rw [Bitmap.containsAndRank_present h] at hc
    simp only [Prod.mk.injEq, decide_eq_false_iff_not, Nat.cast_inj] at hc
    obtain ⟨h1, h2, h3⟩ := hc
    refine ⟨h, h1, h2.symm, h3.symm, ?_⟩
    rw [← h3]
    apply countP_le_eq_countP_lt
    intro hm
    exact h1 (Bitmap.mem_container.1 hm)
  · have hneg := (Bitmap.containsAndRank_no_container h).2
    rw [hc] at hneg
    simp only at hneg
    omega

/-- The report `(false, i, _)` with a non-negative index, from its parts. -/
theorem Bitmap.reported_of_parts {b : Bitmap} {k i : Nat}
    (hf : (b.ContainsAndRank k).1 = false) (hidx : (b.ContainsAndRank k).2.1 = (i : Int)) :
    b.ContainsAndRank k = (false, (i : Int),
      (((b.container (highbits k)).countP (· ≤ lowbits k) : Nat) : Int)) := by
  by_cases h : highbits k ∈ b.containerKeys
  · rw [Bitmap.containsAndRank_present h] at hf hidx ⊢
    simp only at hf hidx
    rw [hf, hidx]
  · have hneg := (Bitmap.containsAndRank_no_container h).2
    rw [hidx] at hneg
    omega

/-- After `Add(key)` of an absent key of an existing container, the key is
found in the same container, at the rank one above the number of keys of the
container below it. -/
theorem Bitmap.containsAndRank_after_add {b : Bitmap} {k : Nat} (hk : k ∉ b.elems)
    (hg : highbits k ∈ b.containerKeys) :
    (b.Add k).ContainsAndRank k = (true,
      ((b.containerKeys.countP (· < highbits k) : Nat) : Int),
      (((b.container (highbits k)).countP (· < lowbits k) + 1 : Nat) : Int)) := by
  have hperm : (b.Add k).elems.Perm (k :: b.elems) := by
    unfold Bitmap.Add
    rw [if_neg hk]
    exact List.perm_orderedInsert _ k b.elems
  have hkeys : (b.Add k).containerKeys.Perm b.containerKeys := by
    unfold Bitmap.containerKeys
    have h1 := (hperm.map highbits).dedup
    rw [List.map_cons, List.dedup_cons_of_mem (List.mem_dedup.1 hg)] at h1
    exact h1
  have hcont : ((b.Add k).container (highbits k)).Perm
      (lowbits k :: b.container (highbits k)) := by
    unfold Bitmap.container
    have h1 := ((hperm.filter (fun x => highbits x = highbits k)).map lowbits)
    simpa [List.filter_cons] using h1
  have hmem : k ∈ (b.Add k).elems := Bitmap.mem_add.2 (Or.inl rfl)
  have hlow : lowbits k ∉ b.container (highbits k) := fun hc => hk (Bitmap.mem_container.1 hc)
  have hcount : (lowbits k :: b.container (highbits k)).countP (· ≤ lowbits k) =
      (b.container (highbits k)).countP (· < lowbits k) + 1 := by
    rw [List.countP_cons, countP_le_eq_countP_lt hlow]
    simp
  rw [Bitmap.containsAndRank_present (hkeys.mem_iff.2 hg), hkeys.countP_eq, hcont.countP_eq,
    hcount]
  simp [hmem]

variable [Inhabited V]

/-- What the insert path of `Put` returns, in terms of the reported index and rank. -/
theorem TagStore.put_at_reported {m : TagStore V} {k i r : Nat} (v : V) {stores : List V}
    (hc : m.keys.ContainsAndRank k = (false, (i : Int), (r : Int)))
    (hi : m.values[i]? = some stores) (hr : r ≤ stores.length) :
    m.Put k v = .ok ⟨m.keys.Add k, m.values.set i (stores.take r ++ v :: stores.drop r)⟩ := by
  obtain ⟨h1, h2, h3, h4, _⟩ := Bitmap.reported_absent hc
  subst h3
  subst h4
  exact TagStore.put_existing v h2 h1 hi hr

end InsertPath

/-! ## Counting values and groups, in any order -/

section Counting

variable {V : Type}

theorem sum_length_set : ∀ (l : List (List V)) (i : Nat) (x old : List V),
    l[i]? = some old →
    ((l.set i x).map List.length).sum + old.length = (l.map List.length).sum + x.length
  | [], _, _, _, h => by simp at h
  | a :: t, 0, x, old, h => by
    simp only [List.getElem?_cons_zero, Option.some.injEq] at h
    subst h
    simp only [List.set_cons_zero, List.map_cons, List.sum_cons]
    omega
  | a :: t, i + 1, x, old, h => by
    simp only [List.getElem?_cons_succ] at h
    have ih := sum_length_set t i x old h
    simp only [List.set_cons_succ, List.map_cons, List.sum_cons]
    omega

theorem goIndex_eq_ok {α : Type} {l : List α} {i : Nat} {a : α}
    (h : goIndex l (i : Int) = .ok a) : l[i]? = some a := by
  unfold goIndex at h
  have h0 : ¬ ((i : Int) < 0) := by omega
  rw [if_neg h0, Int.toNat_ofNat] at h
  split at h
  · rename_i b hb
    cases h
    exact hb
  · cases h

theorem goCopyWithin_ok_dst {α : Type} {l l' : List α} {dst : Nat} {lo hi : Int}
    (h : goCopyWithin l ((dst : Int) + 1) lo hi = .ok l') : dst + 1 ≤ l.length := by
  unfold goCopyWithin at h
  split at h
  · cases h
  · rename_i hc
    omega

theorem Bitmap.containerKeys_add_length (b : Bitmap) {k : Nat} (hk : k ∉ b.elems) :
    (b.Add k).containerKeys.length =
      if highbits k ∈ b.containerKeys then b.containerKeys.length
      else b.containerKeys.length + 1 := by
  have hperm : ((b.Add k).elems.map highbits).Perm (highbits k :: b.elems.map highbits) := by
    unfold Bitmap.Add
    rw [if_neg hk]
    exact (List.perm_orderedInsert _ k b.elems).map highbits
  unfold Bitmap.containerKeys
  rw [hperm.dedup.length_eq]
  by_cases h : highbits k ∈ b.elems.map highbits
  · rw [List.dedup_cons_of_mem h, if_pos (List.mem_dedup.2 h)]
  · rw [List.dedup_cons_of_not_mem h, if_neg (fun hc => h (List.mem_dedup.1 hc)),
      List.length_cons]

variable [Inhabited V]

/-- The three ways a `Put` returns: the key was present and nothing changes,
a group `[v]` is appended, or `v` is inserted in an existing group. -/
theorem TagStore.put_ok_shape {m m' : TagStore V} {k : Nat} {v : V} (h : m.Put k v = .ok m') :
    (m' = m ∧ k ∈ m.keys.elems ∧ m.values.length ≠ 0) ∨
    (m' = ⟨m.keys.Add k, m.values ++ [[v]]⟩ ∧
      (m.values.length = 0 ∨ (k ∉ m.keys.elems ∧ highbits k ∉ m.keys.containerKeys))) ∨
    (∃ stores, k ∉ m.keys.elems ∧ highbits k ∈ m.keys.containerKeys ∧
      m.values[m.keys.containerKeys.countP (· < highbits k)]? = some stores ∧
      (m.keys.container (highbits k)).countP (· ≤ lowbits k) ≤ stores.length ∧
      m' = ⟨m.keys.Add k, m.values.set (m.keys.containerKeys.countP (· < highbits k))
        (stores.take ((m.keys.container (highbits k)).countP (· ≤ lowbits k)) ++ v ::
          stores.drop ((m.keys.container (highbits k)).countP (· ≤ lowbits k)))⟩) := by
  by_cases hne : m.values.length = 0
  · right
    left
    refine ⟨?_, Or.inl hne⟩
    unfold TagStore.Put at h
    rw [if_pos hne] at h
    cases h
    rfl
  by_cases hk : k ∈ m.keys.elems
  · left
    rw [TagStore.put_present v hne hk] at h
    cases h
    exact ⟨rfl, hk, hne⟩
  by_cases hg : highbits k ∈ m.keys.containerKeys
  · right
    right
    have h2 := h
    unfold TagStore.Put at h2
    rw [if_neg hne] at h2
    simp only [Bitmap.containsAndRank_present hg, hk, decide_False, Bool.not_false,
      if_true] at h2
    have hge : ((m.keys.containerKeys.countP (· < highbits k) : Nat) : Int) ≥ 0 := by omega
    rw [if_pos hge] at h2
    simp only [bind_eq_ok] at h2
    obtain ⟨stores, e0, st1, e1, _⟩ := h2
    have hi := goIndex_eq_ok e0
    have hr : (m.keys.container (highbits k)).countP (· ≤ lowbits k) ≤ stores.length := by
      have := goCopyWithin_ok_dst e1
      rw [List.length_append, List.length_singleton] at this
      omega
    refine ⟨stores, hk, hg, hi, hr, ?_⟩
    rw [TagStore.put_existing v hk hg hi hr] at h
    cases h
    rfl
  · right
    left
    rw [TagStore.put_append v hg] at h
    cases h
    exact ⟨rfl, Or.inr ⟨hk, hg⟩⟩

/-- One successful `Put` keeps the two counts aligned: as many values as keys,
as many groups as containers. -/
theorem TagStore.put_counts {m m' : TagStore V} {k : Nat} {v : V} (h : m.Put k v = .ok m')
    (h1 : (m.values.map List.length).sum = m.keys.elems.length)
    (h2 : m.values.length = m.keys.containerKeys.length) :
    (m'.values.map List.length).sum = m'.keys.elems.length ∧
      m'.values.length = m'.keys.containerKeys.length := by
  rcases TagStore.put_ok_shape h with ⟨rfl, _, _⟩ | ⟨rfl, hc⟩ | ⟨stores, hk, hg, hi, _, rfl⟩
  · exact ⟨h1, h2⟩
  · have hkg : k ∉ m.keys.elems ∧ highbits k ∉ m.keys.containerKeys := by
      rcases hc with h0 | hc
      · have e1 : m.keys.containerKeys = [] := by
          rw [← List.length_eq_zero, ← h2]
          exact h0
        have e2 : m.keys.elems = [] := by
          rw [← List.length_eq_zero, ← h1]
          rw [List.length_eq_zero] at h0
          rw [h0]
          rfl
        rw [e1, e2]
        exact ⟨List.not_mem_nil _, List.not_mem_nil _⟩
      · exact hc
    constructor
    · show ((m.values ++ [[v]]).map List.length).sum = (m.keys.Add k).elems.length
      rw [Bitmap.length_add, if_neg hkg.1, ← h1]
      simp
    · show (m.values ++ [[v]]).length = (m.keys.Add k).containerKeys.length
      rw [Bitmap.containerKeys_add_length _ hkg.1, if_neg hkg.2, ← h2]
      simp
  · constructor
    · show ((m.values.set _ _).map List.length).sum = (m.keys.Add k).elems.length
      have hs := sum_length_set m.values _
        (stores.take ((m.keys.container (highbits k)).countP (· ≤ lowbits k)) ++ v ::
          stores.drop ((m.keys.container (highbits k)).countP (· ≤ lowbits k))) stores hi
      rw [Bitmap.length_add, if_neg hk, ← h1]
      simp only [List.length_append, List.length_cons, List.length_take, List.length_drop] at hs
      omega
    · show (m.values.set _ _).length = (m.keys.Add k).containerKeys.length
      rw [Bitmap.containerKeys_add_length _ hk, if_pos hg, ← h2]
      simp

theorem TagStore.putAll_counts : ∀ (kvs : List (Nat × V)) (m m' : TagStore V),
    m.PutAll kvs = .ok m' →
    (m.values.map List.length).sum = m.keys.elems.length →
    m.values.length = m.keys.containerKeys.length →
    (m'.values.map List.length).sum = m'.keys.elems.length ∧
      m'.values.length = m'.keys.containerKeys.length
  | [], m, m', h, h1, h2 => by
    simp only [TagStore.PutAll] at h
    cases h
    exact ⟨h1, h2⟩
  | kv :: rest, m, m', h, h1, h2 => by
    simp only [TagStore.PutAll] at h
    cases hp : m.Put kv.1 kv.2 with
    | error e => rw [hp] at h; cases h
    | ok m1 =>
      rw [hp] at h
      obtain ⟨c1, c2⟩ := TagStore.put_counts hp h1 h2
      exact TagStore.putAll_counts rest m1 m' h c1 c2

end Counting

/-! ## The active-node map -/

namespace Broker

variable {N : Type}

theorem mapGet_mapSet_self : ∀ (m : List (String × N)) (k : String) (v : N),
    mapGet (mapSet m k v) k = some v
  | [], k, v => by simp [mapSet, mapGet]
  | e :: t, k, v => by
    by_cases h : e.1 = k
    · simp [mapSet, mapGet, h]
    · simp [mapSet, mapGet, h, mapGet_mapSet_self t k v]

theorem mapGet_mapSet_ne : ∀ (m : List (String × N)) (k : String) (v : N) (id : String),
    id ≠ k → mapGet (mapSet m k v) id = mapGet m id
  | [], k, v, id, h => by simp [mapSet, mapGet, Ne.symm h]
  | e :: t, k, v, id, h => by
    by_cases hk : e.1 = k
    · have hid : ¬ e.1 = id := fun hc => h (hc.symm.trans hk)
      simp [mapSet, mapGet, hk, hid, Ne.symm h]
    · by_cases hid : e.1 = id
      · simp only [mapSet, mapGet, if_neg hk, if_pos hid]
      · simp only [mapSet, mapGet, if_neg hk, if_neg hid, mapGet_mapSet_ne t k v id h]

theorem mapDelete_mapSet_fresh : ∀ (m : List (String × N)) (k : String) (v : N),
    mapGet m k = none → mapDelete (mapSet m k v) k = m
  | [], k, v, _ => by simp [mapSet, mapDelete]
  | e :: t, k, v, h => by
    by_cases hk : e.1 = k
    · simp [mapGet, hk] at h
    · simp only [mapGet, hk, if_false] at h
      simp [mapSet, mapDelete, hk, mapDelete_mapSet_fresh t k v h]

end Broker

/-! ## The claims -/

section Claims

variable {V : Type} [Inhabited V]

/-- C1 fails on the code: after `Put(0x20000, 1)` then `Put(0x10000, 2)`, two
distinct keys whose groups arrive in descending order, `Get(0x10000)` returns
`(1, true)`, the value that was passed with the other key. -/
theorem get_other_value_after_descending_groups :
    ∃ s : TagStore Nat,
      (NewTagStore : TagStore Nat).PutAll [(0x20000, 1), (0x10000, 2)] = .ok s ∧
      s.Get 0x10000 = .ok (1, true) ∧ s.Get 0x20000 = .ok (2, true) :=
  ⟨⟨⟨[0x10000, 0x20000]⟩, [[1], [2]]⟩, by decide, by decide, by decide⟩

/-- C2 fails on the code: after `Put(0x20000, 1)`, `Put(0x20001, 2)`,
`Put(0x10000, 3)` the bitmap has containers of 1 and 2 keys, in that order,
while the value table has groups of 2 and 1 values: the store is not rank
aligned. -/
theorem rank_alignment_broken :
    ∃ s : TagStore Nat,
      (NewTagStore : TagStore Nat).PutAll [(0x20000, 1), (0x20001, 2), (0x10000, 3)] = .ok s ∧
      s.keys.containerKeys.map (fun hb => (s.keys.container hb).length) = [1, 2] ∧
      s.values.map List.length = [2, 1] ∧ ¬ RankAligned s :=
  ⟨⟨⟨[0x10000, 0x20000, 0x20001]⟩, [[1, 2], [3]]⟩, by decide, by decide, by decide, by decide⟩

/-- C3 fails on the code: after `Put(0x20000, 1)`, `Put(0x20001, 2)`,
`Put(0x10000, 3)`, the call `Get(0x20001)` indexes `values[1][1]` out of range
and the call `Put(0x20002, 4)` slices `stores[3:]` out of bounds. -/
theorem get_and_put_panic_after_descending_groups :
    ∃ s : TagStore Nat,
      (NewTagStore : TagStore Nat).PutAll [(0x20000, 1), (0x20001, 2), (0x10000, 3)] = .ok s ∧
      s.Get 0x20001 = .error .indexOutOfRange ∧
      s.Put 0x20002 4 = .error .sliceBoundsOutOfRange :=
  ⟨⟨⟨[0x10000, 0x20000, 0x20001]⟩, [[1, 2], [3]]⟩, by decide, by decide, by decide⟩

/-- C4 fails on the code: the pairs `(0x10000, 1)` and `(0x20000, 2)` put in
ascending and in descending order give the same `Keys()` and different
`Values()`. -/
theorem values_depend_on_insertion_order :
    ∃ s1 s2 : TagStore Nat,
      (NewTagStore : TagStore Nat).PutAll [(0x10000, 1), (0x20000, 2)] = .ok s1 ∧
      (NewTagStore : TagStore Nat).PutAll [(0x20000, 2), (0x10000, 1)] = .ok s2 ∧
      s1.Keys = s2.Keys ∧ s1.Values = [[1], [2]] ∧ s2.Values = [[2], [1]] ∧
      s1.Values ≠ s2.Values :=
  ⟨⟨⟨[0x10000, 0x20000]⟩, [[1], [2]]⟩, ⟨⟨[0x10000, 0x20000]⟩, [[2], [1]]⟩,
    by decide, by decide, by decide, by decide, by decide, by decide⟩

/-- Re-putting a key already put returns the state unchanged (same key set,
same value table), in every state reached from `NewTagStore` by `Put` calls. -/
theorem put_present_unchanged (kvs : List (Nat × V)) (s : TagStore V) (k : Nat) (v' : V)
    (h : (NewTagStore : TagStore V).PutAll kvs = .ok s) (hk : k ∈ kvs.map Prod.fst) :
    s.Put k v' = .ok s := by
  obtain ⟨r1, _, r3⟩ := TagStore.putAll_new_reach h
  have hmem : k ∈ s.keys.elems := (r3 k).2 hk
  have hne : s.values.length ≠ 0 := by
    intro h0
    rw [r1 h0] at hmem
    cases hmem
  exact TagStore.put_present v' hne hmem

/-- C5 fails on the code: after `Put(0x20000, 1)`, `Put(0x10000, 2)`, the
re-insertion `Put(0x10000, 3)` returns the state unchanged, as claimed, but
`Get(0x10000)` returns `(1, true)`, not the value `2` given at the first
insertion of `0x10000`. -/
theorem reput_get_not_first_value :
    ∃ s : TagStore Nat,
      (NewTagStore : TagStore Nat).PutAll [(0x20000, 1), (0x10000, 2)] = .ok s ∧
      s.Put 0x10000 3 = .ok s ∧
      (NewTagStore : TagStore Nat).PutAll [(0x20000, 1), (0x10000, 2), (0x10000, 3)] = .ok s ∧
      s.Get 0x10000 = .ok (1, true) ∧ s.Get 0x10000 ≠ .ok (2, true) :=
  ⟨⟨⟨[0x10000, 0x20000]⟩, [[1], [2]]⟩, by decide, by decide, by decide, by decide, by decide⟩

/-- C6: after any run of `Put` calls from `NewTagStore` in which no call
fails, `Keys()` enumerates exactly the keys passed to `Put`, each once, in
strictly ascending order. -/
theorem keys_ascending_distinct (kvs : List (Nat × V)) (s : TagStore V)
    (h : (NewTagStore : TagStore V).PutAll kvs = .ok s) :
    s.Keys.ToArray.Sorted (· < ·) ∧ s.Keys.ToArray.Nodup ∧
      ∀ k, k ∈ s.Keys.ToArray ↔ k ∈ kvs.map Prod.fst := by
  obtain ⟨_, r2, r3⟩ := TagStore.putAll_new_reach h
  exact ⟨r2, List.Pairwise.imp (fun hab => Nat.ne_of_lt hab) r2, r3⟩

/-- Witness of C6: keys 30, 0x10005, 20, 30, 10 enumerate as 10, 20, 30, 0x10005. -/
theorem keys_ascending_distinct_witness :
    (NewTagStore : TagStore Nat).PutAll [(30, 1), (0x10005, 2), (20, 3), (30, 4), (10, 5)] =
        .ok ⟨⟨[10, 20, 30, 0x10005]⟩, [[5, 3, 1], [2]]⟩ ∧
      (⟨⟨[10, 20, 30, 0x10005]⟩, [[5, 3, 1], [2]]⟩ : TagStore Nat).Keys.ToArray.Sorted (· < ·) ∧
      (⟨⟨[10, 20, 30, 0x10005]⟩, [[5, 3, 1], [2]]⟩ : TagStore Nat).Keys.ToArray.Nodup :=
  ⟨by decide,
    (keys_ascending_distinct [(30, 1), (0x10005, 2), (20, 3), (30, 4), (10, 5)] _ (by decide)).1,
    (keys_ascending_distinct [(30, 1), (0x10005, 2), (20, 3), (30, 4), (10, 5)] _ (by decide)).2.1⟩

/-- C7: after any run of `Put` calls from `NewTagStore` in which no call
fails, `Size()` is the number of distinct keys passed to `Put`; a further
successful `Put` raises it by one when the key was absent and leaves it
unchanged when the key was present. -/
theorem size_counts_distinct_keys (kvs : List (Nat × V)) (s : TagStore V)
    (h : (NewTagStore : TagStore V).PutAll kvs = .ok s) :
    s.Size = (kvs.map Prod.fst).dedup.length ∧
      ∀ k v s', s.Put k v = .ok s' →
        s'.Size = if k ∈ kvs.map Prod.fst then s.Size else s.Size + 1 := by
  obtain ⟨_, r2, r3⟩ := TagStore.putAll_new_reach h
  constructor
  · have hn : s.keys.elems.Nodup := List.Pairwise.imp (fun hab => Nat.ne_of_lt hab) r2
    have hp : s.keys.elems.Perm (kvs.map Prod.fst).dedup := by
      apply (List.perm_ext_iff_of_nodup hn (List.nodup_dedup _)).2
      intro a
      rw [List.mem_dedup]
      exact r3 a
    exact hp.length_eq
  · intro k v s' hp
    obtain ⟨hk, _⟩ := TagStore.put_ok_keys hp
    unfold TagStore.Size Bitmap.GetCardinality
    rw [hk, Bitmap.length_add]
    by_cases hm : k ∈ s.keys.elems
    · rw [if_pos hm, if_pos ((r3 k).1 hm)]
    · rw [if_neg hm, if_neg (fun hc => hm ((r3 k).2 hc))]

/-- Witness of C7: keys 30, 0x10005, 20, 30 give size 3, and a further
`Put(40, 9)` of an absent key gives size 4. -/
theorem size_counts_distinct_keys_witness :
    (NewTagStore : TagStore Nat).PutAll [(30, 1), (0x10005, 2), (20, 3), (30, 4)] =
        .ok ⟨⟨[20, 30, 0x10005]⟩, [[3, 1], [2]]⟩ ∧
      (⟨⟨[20, 30, 0x10005]⟩, [[3, 1], [2]]⟩ : TagStore Nat).Size =
        (([(30, 1), (0x10005, 2), (20, 3), (30, 4)] : List (Nat × Nat)).map Prod.fst).dedup.length ∧
      (⟨⟨[20, 30, 40, 0x10005]⟩, [[3, 1, 9], [2]]⟩ : TagStore Nat).Size =
        if 40 ∈ ([(30, 1), (0x10005, 2), (20, 3), (30, 4)] : List (Nat × Nat)).map Prod.fst
        then (⟨⟨[20, 30, 0x10005]⟩, [[3, 1], [2]]⟩ : TagStore Nat).Size
        else (⟨⟨[20, 30, 0x10005]⟩, [[3, 1], [2]]⟩ : TagStore Nat).Size + 1 :=
  ⟨by decide,
    (size_counts_distinct_keys [(30, 1), (0x10005, 2), (20, 3), (30, 4)] _ (by decide)).1,
    (size_counts_distinct_keys [(30, 1), (0x10005, 2), (20, 3), (30, 4)] _ (by decide)).2
      40 9 ⟨⟨[20, 30, 40, 0x10005]⟩, [[3, 1, 9], [2]]⟩ (by decide)⟩

/-- C8: in every state reached from `NewTagStore` by `Put` calls, the empty
store included, `Get(k)` of a key never passed to `Put` returns `(nil, false)`
and does not fail. -/
theorem get_never_put (kvs : List (Nat × V)) (s : TagStore V) (k : Nat)
    (h : (NewTagStore : TagStore V).PutAll kvs = .ok s) (hk : k ∉ kvs.map Prod.fst) :
    s.Get k = .ok (default, false) := by
  obtain ⟨_, _, r3⟩ := TagStore.putAll_new_reach h
  exact TagStore.get_absent (fun hc => hk ((r3 k).1 hc))

/-- Witness of C8, on Scenario A: after `Put(5, 1)`, `Get(6)` is `(nil, false)`. -/
theorem get_never_put_witness :
    (NewTagStore : TagStore Nat).PutAll [(5, 1)] = .ok ⟨⟨[5]⟩, [[1]]⟩ ∧
      6 ∉ ([(5, 1)] : List (Nat × Nat)).map Prod.fst ∧
      (⟨⟨[5]⟩, [[1]]⟩ : TagStore Nat).Get 6 = .ok (default, false) :=
  ⟨by decide, by decide, get_never_put [(5, 1)] _ 6 (by decide) (by decide)⟩

/-- C9: for distinct keys whose new high-16-bit groups are each introduced
above every earlier key (keys of an existing group in any order), the run of
`Put` calls succeeds and `Values()` is the reference table: one group per
distinct prefix in ascending prefix order, each listing the values of its keys
in ascending key order, so each group is as long as the number of keys with
its prefix. -/
theorem values_eq_refTable (kvs : List (Nat × V)) (hd : (kvs.map Prod.fst).Nodup)
    (hg : GroupsAscend [] (kvs.map Prod.fst)) :
    ∃ s, (NewTagStore : TagStore V).PutAll kvs = .ok s ∧ s.Values = refTable kvs ∧
      s.Values.map List.length = (prefixesOf (sortByKey kvs)).map
        (fun p => (kvs.filter (fun kv => highbits kv.1 = p)).length) := by
  obtain ⟨s, ps, h1, h2, h3⟩ := putAll_new_mirrors kvs hg
  rw [firstWrites_of_nodup kvs hd] at h3
  have e : ps = sortByKey kvs := eq_sortByKey h2.sorted h3
  have hv : s.Values = refTable kvs := by
    unfold TagStore.Values refTable
    rw [h2.values, e]
  refine ⟨s, h1, hv, ?_⟩
  rw [hv]
  unfold refTable tableOf
  rw [List.map_map]
  apply List.map_congr_left
  intro p _
  rw [Function.comp_apply, groupOf_length]
  have hperm : (sortByKey kvs).Perm kvs := List.perm_insertionSort _ kvs
  exact (hperm.filter _).length_eq

/-- Witness of C9, on Scenario C: keys 0x10001, 0x10002, 0x20001. -/
theorem values_eq_refTable_witness :
    (([(0x10001, 1), (0x10002, 2), (0x20001, 3)] : List (Nat × Nat)).map Prod.fst).Nodup ∧
      GroupsAscend []
        (([(0x10001, 1), (0x10002, 2), (0x20001, 3)] : List (Nat × Nat)).map Prod.fst) ∧
      ∃ s, (NewTagStore : TagStore Nat).PutAll [(0x10001, 1), (0x10002, 2), (0x20001, 3)] = .ok s ∧
        s.Values = refTable [(0x10001, 1), (0x10002, 2), (0x20001, 3)] ∧
        s.Values.map List.length =
          (prefixesOf (sortByKey [(0x10001, 1), (0x10002, 2), (0x20001, 3)])).map
            (fun p => (([(0x10001, 1), (0x10002, 2), (0x20001, 3)] : List (Nat × Nat)).filter
              (fun kv => highbits kv.1 = p)).length) :=
  ⟨by decide, by decide,
    values_eq_refTable [(0x10001, 1), (0x10002, 2), (0x20001, 3)] (by decide) (by decide)⟩

/-- C10: for distinct keys that all share their high 16 bits, put in any
order, the run of `Put` calls succeeds, `Get(k)` returns the value put with
`k` for every key of the run, and the value table is the single group of the
values in ascending key order. -/
theorem same_group_get_and_order (kvs : List (Nat × V)) (hb : Nat)
    (hd : (kvs.map Prod.fst).Nodup) (hh : ∀ kv ∈ kvs, highbits kv.1 = hb) :
    ∃ s, (NewTagStore : TagStore V).PutAll kvs = .ok s ∧
      (∀ kv ∈ kvs, s.Get kv.1 = .ok (kv.2, true)) ∧
      (kvs ≠ [] → s.Values = [(sortByKey kvs).map Prod.snd]) ∧
      (kvs = [] → s.Values = []) := by
  have hg : GroupsAscend [] (kvs.map Prod.fst) := by
    apply groupsAscend_one_group hb
    · intro k hk
      cases hk
    · intro k hk
      obtain ⟨a, ha, rfl⟩ := List.mem_map.1 hk
      exact hh a ha
  obtain ⟨s, ps, h1, h2, h3⟩ := putAll_new_mirrors kvs hg
  rw [firstWrites_of_nodup kvs hd] at h3
  refine ⟨s, h1, ?_, ?_, ?_⟩
  · intro kv hkv
    exact h2.get_mem (h3.mem_iff.2 hkv)
  rotate_left
  · intro he
    subst he
    simp only [TagStore.PutAll] at h1
    cases h1
    rfl
  · intro hne
    have e : ps = sortByKey kvs := eq_sortByKey h2.sorted h3
    have hne' : ps ≠ [] := by
      intro hc
      rw [hc] at h3
      exact hne h3.symm.eq_nil
    unfold TagStore.Values
    rw [h2.values, tableOf_one_group hb hne' h2.sorted (fun a ha => hh a (h3.mem_iff.1 ha)), e]

/-- Witness of C10, on Scenario D: keys 30, 20, 10 in descending order. -/
theorem same_group_get_and_order_witness :
    (([(30, 12), (20, 11), (10, 10)] : List (Nat × Nat)).map Prod.fst).Nodup ∧
      (∀ kv ∈ ([(30, 12), (20, 11), (10, 10)] : List (Nat × Nat)), highbits kv.1 = 0) ∧
      ∃ s, (NewTagStore : TagStore Nat).PutAll [(30, 12), (20, 11), (10, 10)] = .ok s ∧
        (∀ kv ∈ ([(30, 12), (20, 11), (10, 10)] : List (Nat × Nat)), s.Get kv.1 = .ok (kv.2, true)) ∧
        (([(30, 12), (20, 11), (10, 10)] : List (Nat × Nat)) ≠ [] →
          s.Values = [(sortByKey [(30, 12), (20, 11), (10, 10)]).map Prod.snd]) ∧
        (([(30, 12), (20, 11), (10, 10)] : List (Nat × Nat)) = [] → s.Values = []) :=
  ⟨by decide, by decide,
    same_group_get_and_order [(30, 12), (20, 11), (10, 10)] 0 (by decide) (by decide)⟩

/-- C12: when `ContainsAndRank(key)` reports `found = false` and an existing
container index `i`, and `r` is the 1-based ordinal the key will occupy among
the keys of its container (one more than the number of its keys below `key`),
then `Put`, given that group `i` exists and holds at least `r - 1` values,
succeeds and stores `value` at 0-based index `r - 1` of `values[i]`; after
the call `ContainsAndRank(key)` reports `(true, i, r)`, so `r` is the ordinal
the key occupies. -/
theorem put_stores_at_ordinal_minus_one (m : TagStore V) (k i r : Nat) (v : V)
    (stores : List V)
    (hf : (m.keys.ContainsAndRank k).1 = false)
    (hidx : (m.keys.ContainsAndRank k).2.1 = (i : Int))
    (hord : r = (m.keys.container (highbits k)).countP (· < lowbits k) + 1)
    (hi : m.values[i]? = some stores) (hr : r - 1 ≤ stores.length) :
    ∃ m', m.Put k v = .ok m' ∧
      m'.keys.ContainsAndRank k = (true, (i : Int), (r : Int)) ∧
      ∃ g, m'.values[i]? = some g ∧ g[r - 1]? = some v := by
  have hc := Bitmap.reported_of_parts hf hidx
  obtain ⟨h1, h2, h3, _, h5⟩ := Bitmap.reported_absent hc
  have hr1 : r - 1 = (m.keys.container (highbits k)).countP (· ≤ lowbits k) := by
    rw [hord, h5]
    rfl
  rw [← hr1] at hc
  refine ⟨_, TagStore.put_at_reported v hc hi hr, ?_, stores.take (r - 1) ++ v ::
    stores.drop (r - 1), ?_, ?_⟩
  · show (m.keys.Add k).ContainsAndRank k = _
    rw [Bitmap.containsAndRank_after_add h2 h1, h3, hord]
  · have hlen : i < m.values.length := by
      rcases Nat.lt_or_ge i m.values.length with c | c
      · exact c
      · rw [List.getElem?_eq_none c] at hi
        cases hi
    show (m.values.set i _)[i]? = _
    simp [hlen]
  · have hl : r - 1 = (stores.take (r - 1)).length := by
      rw [List.length_take, Nat.min_eq_left hr]
    rw [List.getElem?_append_right (Nat.le_of_eq hl.symm), ← hl]
    simp

/-- Witness of C12: after `Put(10, 1)`, the key 20 is absent from the existing
container 0 and will be its 2nd key; `Put(20, 2)` stores 2 at index 1 of
group 0. -/
theorem put_stores_at_ordinal_minus_one_witness :
    ((⟨⟨[10]⟩, [[1]]⟩ : TagStore Nat).keys.ContainsAndRank 20).1 = false ∧
      ((⟨⟨[10]⟩, [[1]]⟩ : TagStore Nat).keys.ContainsAndRank 20).2.1 = ((0 : Nat) : Int) ∧
      2 = ((⟨⟨[10]⟩, [[1]]⟩ : TagStore Nat).keys.container (highbits 20)).countP
        (· < lowbits 20) + 1 ∧
      ∃ m', (⟨⟨[10]⟩, [[1]]⟩ : TagStore Nat).Put 20 2 = .ok m' ∧
        m'.keys.ContainsAndRank 20 = (true, ((0 : Nat) : Int), ((2 : Nat) : Int)) ∧
        ∃ g, m'.values[0]? = some g ∧ g[2 - 1]? = some 2 :=
  ⟨by decide, by decide, by decide,
    put_stores_at_ordinal_minus_one ⟨⟨[10]⟩, [[1]]⟩ 20 0 2 2 [1] (by decide) (by decide)
      (by decide) (by decide) (by decide)⟩

/-- C13: on the insert path of `Put` (absent key, existing container index
`i`, insertion index `p` at most the length of `values[i]`), the call succeeds,
the new `values[i]` is `old[0:p] ++ [value] ++ old[p:]` (one longer, entries
before `p` keep their index, `value` sits at `p`, entries from `p` on move one
slot right), the number of groups is unchanged and every other group is
unchanged. -/
theorem put_insert_frame (m : TagStore V) (k i p : Nat) (v : V) (old : List V)
    (hc : m.keys.ContainsAndRank k = (false, (i : Int), (p : Int)))
    (hi : m.values[i]? = some old) (hp : p ≤ old.length) :
    ∃ m', m.Put k v = .ok m' ∧ m'.values.length = m.values.length ∧
      m'.values[i]? = some (old.take p ++ v :: old.drop p) ∧
      (∀ j, j ≠ i → m'.values[j]? = m.values[j]?) ∧
      (old.take p ++ v :: old.drop p).length = old.length + 1 ∧
      (∀ j, j < p → (old.take p ++ v :: old.drop p)[j]? = old[j]?) ∧
      (old.take p ++ v :: old.drop p)[p]? = some v ∧
      (∀ j, p ≤ j → (old.take p ++ v :: old.drop p)[j + 1]? = old[j]?) := by
  have hlen : i < m.values.length := by
    rcases Nat.lt_or_ge i m.values.length with c | c
    · exact c
    · rw [List.getElem?_eq_none c] at hi
      cases hi
  have hl : (old.take p).length = p := by
    rw [List.length_take, Nat.min_eq_left hp]
  refine ⟨_, TagStore.put_at_reported v hc hi hp, ?_, ?_, ?_, ?_, ?_, ?_, ?_⟩
  · show (m.values.set i _).length = _
    simp
  · show (m.values.set i _)[i]? = _
    simp [hlen]
  · intro j hj
    show (m.values.set i _)[j]? = _
    rw [List.getElem?_set_ne (fun hc => hj hc.symm)]
  · simp only [List.length_append, List.length_cons, List.length_take, List.length_drop]
    omega
  · intro j hj
    rw [List.getElem?_append_left (by rw [hl]; exact hj), List.getElem?_take_of_lt hj]
  · rw [List.getElem?_append_right (Nat.le_of_eq hl), hl]
    simp
  · intro j hj
    rw [List.getElem?_append_right (by rw [hl]; omega), hl]
    have e : j + 1 - p = (j - p) + 1 := by omega
    rw [e, List.getElem?_cons_succ, List.getElem?_drop]
    congr 1
    omega

/-- Witness of C13: in the store with keys 10, 30 and values `[[1, 3]]`,
`Put(20, 2)` is reported as `(false, 0, 1)` and gives the group `[1, 2, 3]`. -/
theorem put_insert_frame_witness :
    (⟨⟨[10, 30]⟩, [[1, 3]]⟩ : TagStore Nat).keys.ContainsAndRank 20 =
        (false, ((0 : Nat) : Int), ((1 : Nat) : Int)) ∧
      ∃ m', (⟨⟨[10, 30]⟩, [[1, 3]]⟩ : TagStore Nat).Put 20 2 = .ok m' ∧
        m'.values.length = ([[1, 3]] : List (List Nat)).length ∧
        m'.values[0]? = some (([1, 3] : List Nat).take 1 ++ 2 :: ([1, 3] : List Nat).drop 1) :=
  ⟨by decide,
    (put_insert_frame ⟨⟨[10, 30]⟩, [[1, 3]]⟩ 20 0 1 2 [1, 3] (by decide) (by decide)
      (by decide)).imp fun _ h => ⟨h.1, h.2.1, h.2.2.1⟩⟩

/-- C14: after any run of `Put` calls from `NewTagStore` in which no call
fails (any keys, any order, duplicates allowed), the values of all groups of
`Values()` number `Size()`, the groups number the distinct high-16-bit
prefixes of the keys put, and the value table is empty exactly when no key
was put. -/
theorem counts_aligned (kvs : List (Nat × V)) (s : TagStore V)
    (h : (NewTagStore : TagStore V).PutAll kvs = .ok s) :
    (s.Values.map List.length).sum = s.Size ∧
      s.Values.length = ((kvs.map (fun kv => highbits kv.1)).dedup).length ∧
      (s.Values = [] ↔ kvs = []) := by
  obtain ⟨c1, c2⟩ := TagStore.putAll_counts kvs NewTagStore s h rfl
    (by simp [NewTagStore, Bitmap.New, Bitmap.containerKeys])
  obtain ⟨_, _, r3⟩ := TagStore.putAll_new_reach h
  refine ⟨c1, ?_, ?_⟩
  · show s.values.length = _
    rw [c2]
    apply List.Perm.length_eq
    apply (List.perm_ext_iff_of_nodup (List.nodup_dedup _) (List.nodup_dedup _)).2
    intro a
    rw [List.mem_dedup, List.mem_dedup, List.mem_map, List.mem_map]
    constructor
    · rintro ⟨k, hk, rfl⟩
      obtain ⟨kv, hkv, rfl⟩ := List.mem_map.1 ((r3 k).1 hk)
      exact ⟨kv, hkv, rfl⟩
    · rintro ⟨kv, hkv, rfl⟩
      exact ⟨kv.1, (r3 kv.1).2 (List.mem_map.2 ⟨kv, hkv, rfl⟩), rfl⟩
  · constructor
    · intro hv
      have hv' : s.values = [] := hv
      rw [hv'] at c1
      have he : s.keys.elems = [] := by
        rw [← List.length_eq_zero, ← c1]
        rfl
      cases kvs with
      | nil => rfl
      | cons kv rest =>
        have := (r3 kv.1).2 (List.mem_map.2 ⟨kv, List.mem_cons_self _ _, rfl⟩)
        rw [he] at this
        cases this
    · intro he
      subst he
      simp only [TagStore.PutAll] at h
      cases h
      rfl

/-- Witness of C14: keys 0x20000, 0x10000, 0x20001, 0x10000 put in that order
give 3 values in 2 groups. -/
theorem counts_aligned_witness :
    (NewTagStore : TagStore Nat).PutAll [(0x20000, 1), (0x10000, 2), (0x20001, 3), (0x10000, 4)] =
        .ok ⟨⟨[0x10000, 0x20000, 0x20001]⟩, [[1], [2, 3]]⟩ ∧
      ((⟨⟨[0x10000, 0x20000, 0x20001]⟩, [[1], [2, 3]]⟩ : TagStore Nat).Values.map List.length).sum =
        (⟨⟨[0x10000, 0x20000, 0x20001]⟩, [[1], [2, 3]]⟩ : TagStore Nat).Size ∧
      (⟨⟨[0x10000, 0x20000, 0x20001]⟩, [[1], [2, 3]]⟩ : TagStore Nat).Values.length =
        ((([(0x20000, 1), (0x10000, 2), (0x20001, 3), (0x10000, 4)] : List (Nat × Nat)).map
          (fun kv => highbits kv.1)).dedup).length :=
  ⟨by decide,
    (counts_aligned [(0x20000, 1), (0x10000, 2), (0x20001, 3), (0x10000, 4)] _ (by decide)).1,
    (counts_aligned [(0x20000, 1), (0x10000, 2), (0x20001, 3), (0x10000, 4)] _ (by decide)).2.1⟩

end Claims

section BrokerClaims

open Broker Broker.nodeStateMachine

variable {N : Type}

/-- C11: when the node id of `key` (its last path element) is not registered
and `resource` decodes to a node, `OnCreate(key, resource)` followed by
`OnDelete(key)` leaves the active-node map as it was before the two calls;
after `OnCreate` alone the map holds the decoded node under that id and every
other entry is unchanged. -/
theorem onCreate_onDelete_roundtrip (d : Deps N) (s : nodeStateMachine N) (key : String)
    (resource : List Nat) (node : N) (hdec : d.unmarshal resource = some node)
    (hfresh : mapGet s.nodes (d.split key).2 = none) :
    (OnDelete d (OnCreate d s key resource) key).nodes = s.nodes ∧
      (OnDelete d (OnCreate d s key resource) key).GetActiveNodes = s.GetActiveNodes ∧
      mapGet (OnCreate d s key resource).nodes (d.split key).2 = some node ∧
      ∀ id, id ≠ (d.split key).2 →
        mapGet (OnCreate d s key resource).nodes id = mapGet s.nodes id := by
  have hc : (OnCreate d s key resource).nodes = mapSet s.nodes (d.split key).2 node := by
    unfold OnCreate
    rw [hdec]
    simp only
    split <;> rfl
  have hd : ∀ t : nodeStateMachine N, (OnDelete d t key).nodes = mapDelete t.nodes (d.split key).2 := by
    intro t
    unfold OnDelete
    simp only
    split
    · split <;> rfl
    · rfl
  have hr : (OnDelete d (OnCreate d s key resource) key).nodes = s.nodes := by
    rw [hd, hc, mapDelete_mapSet_fresh _ _ _ hfresh]
  refine ⟨hr, ?_, ?_, ?_⟩
  · unfold GetActiveNodes
    rw [hr]
  · rw [hc, mapGet_mapSet_self]
  · intro id hid
    rw [hc, mapGet_mapSet_ne _ _ _ _ hid]

/-- Witness of C11: with node `n2` registered and monitoring on, the key
`/active/n1` with a resource that decodes to port 8080. -/
theorem onCreate_onDelete_roundtrip_witness :
    exampleDeps.unmarshal [8080] = some 8080 ∧
      mapGet [("n2", 9000)] (exampleDeps.split "/active/n1").2 = none ∧
      (OnDelete exampleDeps
        (OnCreate exampleDeps ⟨[("n2", 9000)], true, [], []⟩ "/active/n1" [8080])
        "/active/n1").nodes = [("n2", 9000)] ∧
      mapGet (OnCreate exampleDeps ⟨[("n2", 9000)], true, [], []⟩ "/active/n1" [8080]).nodes
        (exampleDeps.split "/active/n1").2 = some 8080 :=
  ⟨by decide, by decide,
    (onCreate_onDelete_roundtrip exampleDeps ⟨[("n2", 9000)], true, [], []⟩ "/active/n1" [8080]
      8080 (by decide) (by decide)).1,
    (onCreate_onDelete_roundtrip exampleDeps ⟨[("n2", 9000)], true, [], []⟩ "/active/n1" [8080]
      8080 (by decide) (by decide)).2.2.1⟩

/-- C15: when the JSON decoding of `resource` fails, `OnCreate(key, resource)`
leaves the active-node map and the monitoring flag unchanged and issues no
call to the monitoring state machine, whether or not monitoring is on; it only
logs the error. -/
theorem onCreate_undecodable (d : Deps N) (s : nodeStateMachine N) (key : String)
    (resource : List Nat) (hdec : d.unmarshal resource = none) :
    (OnCreate d s key resource).nodes = s.nodes ∧
      (OnCreate d s key resource).monitoring = s.monitoring ∧
      (OnCreate d s key resource).monitorCalls = s.monitorCalls ∧
      (OnCreate d s key resource).errorLog = s.errorLog ++ [resource] := by
  unfold OnCreate
  rw [hdec]
  exact ⟨rfl, rfl, rfl, rfl⟩

/-- Witness of C15: with monitoring on, a resource of two numbers does not
decode and the map, the flag and the monitoring calls stay as they were. -/
theorem onCreate_undecodable_witness :
    exampleDeps.unmarshal [1, 2] = none ∧
      (OnCreate exampleDeps ⟨[("n2", 9000)], true, [], []⟩ "/active/n1" [1, 2]).nodes =
        [("n2", 9000)] ∧
      (OnCreate exampleDeps ⟨[("n2", 9000)], true, [], []⟩ "/active/n1" [1, 2]).monitoring = true ∧
      (OnCreate exampleDeps ⟨[("n2", 9000)], true, [], []⟩ "/active/n1" [1, 2]).monitorCalls = [] :=
  ⟨by decide,
    (onCreate_undecodable exampleDeps ⟨[("n2", 9000)], true, [], []⟩ "/active/n1" [1, 2]
      (by decide)).1,
    (onCreate_undecodable exampleDeps ⟨[("n2", 9000)], true, [], []⟩ "/active/n1" [1, 2]
      (by decide)).2.1,
    (onCreate_undecodable exampleDeps ⟨[("n2", 9000)], true, [], []⟩ "/active/n1" [1, 2]
      (by decide)).2.2.1⟩

end BrokerClaims

end Lindb
